import Mathlib

/-!
# Ordered path list and its dumpers (`fullpath/paths.go`, `dumpers/dumpers.go`)

A shallow embedding of the list mutation engine of `tjweldon/paths`, of its formatters and
dumpers, and of the standard-library functions they call.

* A Go `[]string` owned by a single `Paths` value is modelled by its sequence of
  elements, `List String`.  Every slice expression of the source is applied to
  `p.Paths` with bounds that are either negative or at most `len(p.Paths)`, so the
  distinction between length and capacity never decides whether an expression panics,
  and the temporaries `segTwo` are fresh copies, so in-place `append` never clobbers
  data that is read afterwards.
* A Go `int` index is modelled by `Int`.  The only arithmetic the source performs on
  indexes is `len(p.Paths) - 1` and `index + 1` on an already clamped index, neither of
  which can wrap around.
* A run-time panic (index or slice bounds out of range) is modelled by `Except.error`.
* A Go `string` entry is modelled by a Lean `String`, which stands for the Go string holding
  its UTF-8 encoding.  The list operations only compare entries for equality.  Where the bytes
  of a string matter (the JSON encoding), Go strings are byte lists.
-/

set_option linter.dupNamespace false

namespace fullpath

/-- Run-time panics raised by Go index and slice expressions. -/
inductive Panic where
  | indexOutOfRange
  | sliceBoundsOutOfRange
  deriving DecidableEq

/-- The struct `Paths` of `paths.go`, with its single field `Paths []string`. -/
structure Paths where
  Paths : List String
  deriving DecidableEq

/-- Go slice expression `s[:high]`: panics unless `0 ≤ high ≤ len(s)`. -/
def sliceTo (s : List String) (high : Int) : Except Panic (List String) :=
  if 0 ≤ high ∧ high ≤ (s.length : Int) then .ok (s.take high.toNat)
  else .error .sliceBoundsOutOfRange

/-- Go slice expression `s[low:]`: panics unless `0 ≤ low ≤ len(s)`. -/
def sliceFrom (s : List String) (low : Int) : Except Panic (List String) :=
  if 0 ≤ low ∧ low ≤ (s.length : Int) then .ok (s.drop low.toNat)
  else .error .sliceBoundsOutOfRange

/-- Go index expression `s[i]` read: panics unless `0 ≤ i < len(s)`. -/
def indexAt (s : List String) (i : Int) : Except Panic String :=
  if 0 ≤ i ∧ i < (s.length : Int) then
    match s[i.toNat]? with
    | some v => .ok v
    | none => .error .indexOutOfRange
  else .error .indexOutOfRange

/-- Go index assignment `s[i] = v`: panics unless `0 ≤ i < len(s)`. -/
def assignAt (s : List String) (i : Int) (v : String) : Except Panic (List String) :=
  if 0 ≤ i ∧ i < (s.length : Int) then .ok (s.set i.toNat v)
  else .error .indexOutOfRange

/-- The function `stringInSlice(a, list)`: linear search with early return. -/
def stringInSlice (a : String) : List String → Bool
  | [] => false
  | b :: rest => if b = a then true else stringInSlice a rest

/-- One iteration of the loop body of `Deduplicate`, acting on the new `p.Paths`. -/
def dedupStep (acc : List String) (path : String) : List String :=
  if stringInSlice path acc then acc else acc ++ [path]

/-- The method `(*Paths).Deduplicate`: `p.Paths` is reset to an empty slice and the old entries
are appended in order, skipping those already present. -/
def Deduplicate (p : Paths) : Paths :=
  let duped := p.Paths
  ⟨duped.foldl dedupStep []⟩

/-- The method `(*Paths).Insert`. -/
def Insert (p : Paths) (path : String) (index : Int) : Except Panic Paths := do
  let index := if index < 0 then 0 else index
  let index := if index ≥ (p.Paths.length : Int) then (p.Paths.length : Int) else index
  let segOne ← sliceTo p.Paths index
  let tail ← sliceFrom p.Paths index
  let segTwo := [path] ++ tail
  pure ⟨segOne ++ segTwo⟩

/-- The method `(*Paths).Remove`. -/
def Remove (p : Paths) (index : Int) : Except Panic Paths := do
  let index := if index < 0 then 0 else index
  let index := if index ≥ (p.Paths.length : Int) then (p.Paths.length : Int) - 1 else index
  let segOne ← sliceTo p.Paths index
  let tail ← sliceFrom p.Paths (index + 1)
  let segTwo := [] ++ tail
  pure ⟨segOne ++ segTwo⟩

/-- The method `(*Paths).Move`. -/
def Move (p : Paths) (src dst : Int) : Except Panic Paths := do
  if src ≥ (p.Paths.length : Int) ∨ src < 0 ∨ src = dst then
    pure p
  else
    let path ← indexAt p.Paths src
    let p ← Remove p src
    Insert p path dst

/-- The method `(*Paths).Replace`. -/
def Replace (p : Paths) (target : Int) (path : String) : Except Panic Paths := do
  if target < 0 ∨ target ≥ (p.Paths.length : Int) then
    pure p
  else
    let s ← assignAt p.Paths target path
    pure ⟨s⟩

/-- The method `(*Paths).Swap`. -/
def Swap (p : Paths) (src dst : Int) : Except Panic Paths := do
  if src = dst then
    pure p
  else
    let srcPath ← indexAt p.Paths src
    let dstPath ← indexAt p.Paths dst
    let p ← Replace p src dstPath
    Replace p dst srcPath

/-! ## Specification-side definitions -/

/-- Effective index of `Insert` as the specification words it: negative becomes `0`,
`≥ n` becomes `n`, anything else is kept. -/
def insertIndex (n : Nat) (i : Int) : Nat :=
  if i < 0 then 0 else if i ≥ (n : Int) then n else i.toNat

/-- Effective index of `Remove` as the specification words it: negative becomes `0`,
`≥ n` becomes `n - 1`, anything else is kept. -/
def removeIndex (n : Nat) (i : Int) : Nat :=
  if i < 0 then 0 else if i ≥ (n : Int) then n - 1 else i.toNat

/-- Index `i` of `l` is a first occurrence, in the words of the specification: no earlier
index `j < i` holds an equal string. -/
def isFirstOccurrence (l : List String) (i : Nat) : Bool :=
  decide (∀ j, j < i → l[j]? ≠ l[i]?)

/-- The subsequence of `l` that keeps the element at index `i` exactly when `i` is a first
occurrence, in the original order. -/
def firstOccurrences (l : List String) : List String :=
  (List.range l.length).filterMap (fun i => if isFirstOccurrence l i then l[i]? else none)

end fullpath

/-! ## Standard-library string functions used by the repository

A Go `string` is modelled by a Lean `String`, that is by a Go string holding well-formed UTF-8.
The separator `":"` is a single ASCII character, so cutting the bytes at every `':'` byte and
cutting the characters at every `':'` character give the same fields. -/

namespace strings

/-- Modelled from the spec: `strings.Count` belongs to the Go standard library, whose source is
not part of the repository; number of occurrences of a one-character separator in `s`. -/
def Count (s : List Char) (sep : Char) : Nat :=
  match s with
  | [] => 0
  | c :: cs => if c = sep then Count cs sep + 1 else Count cs sep

/-- Modelled from the spec: `strings.Index` belongs to the Go standard library, whose source is
not part of the repository; position of the first occurrence of a one-character separator,
`none` standing for the result `-1`. -/
def Index (s : List Char) (sep : Char) : Option Nat :=
  match s with
  | [] => none
  | c :: cs => if c = sep then some 0 else (Index cs sep).map (· + 1)

/-- Modelled from the spec: the loop of the library function `genSplit` behind `strings.Split`,
whose source is not part of the repository.  The first argument is the number `n - 1` of cuts
still allowed; each round cuts at the first separator (`a[i] = s[:m]`, `s = s[m+1:]`), and the
remainder becomes the last field. -/
def genSplit (sep : Char) : Nat → List Char → List (List Char)
  | 0, s => [s]
  | n + 1, s =>
    match Index s sep with
    | none => [s]
    | some m => s.take m :: genSplit sep n (s.drop (m + 1))

/-- Modelled from the spec: `strings.Split(s, sep)` of the Go standard library, whose source is
not part of the repository, for a separator of one character (the specification: "splits `s`
on `:`", empty fields are kept).  As in the library, `n = Count(s, sep) + 1` fields are
requested from `genSplit`. -/
def Split (s : String) (sep : Char) : List String :=
  (genSplit sep (Count s.data sep) s.data).map String.mk

/-- Modelled from the spec: `strings.Join(elems, sep)` of the Go standard library, whose source
is not part of the repository: the empty string for no element, the element itself for one
element, otherwise the first element followed by `sep` and the next element for every further
element. -/
def Join (elems : List String) (sep : String) : String :=
  match elems with
  | [] => ""
  | [e] => e
  | e :: rest => rest.foldl (fun b s => b ++ sep ++ s) e

end strings

namespace fullpath

/-- The constant `pathKey`. -/
def pathKey : String := "PATH"

/-- The method `(*Paths).ReadEnv`; the process environment read by `os.Getenv` is the
parameter `getenv`. -/
def ReadEnv (getenv : String → String) (_p : Paths) : Paths :=
  let paths := getenv pathKey
  ⟨strings.Split paths ':'⟩

end fullpath

/-! ## Formatters, outputters and dumpers (`dumpers/dumpers.go`)

Formatters and outputters are arbitrary Go functions, so they are modelled as functions that
act on a world `σ` (files, standard output, any other state).  A Go `error` result is an
`Option GoError`, `none` standing for `nil`.  A formatter receives the list by value: the
formatters of the repository only read it. -/

namespace dumpers
open fullpath

/-- A non-nil Go `error` value. -/
structure GoError where
  msg : String
  deriving DecidableEq

/-- The type `Format func(p *fullpath.Paths) (string, error)`. -/
abbrev Format (σ : Type) := Paths → σ → (String × Option GoError) × σ

/-- The struct `Formatter`. -/
structure Formatter (σ : Type) where
  Format : Format σ

/-- The loop of the formatter `IndexedList`: `result += fmt.Sprintf("%d: %s\n", index, path)`,
where `%d` prints the non-negative index in decimal and `%s` the entry as it is. -/
def indexedLoop : List String → Nat → String → String
  | [], _, result => result
  | path :: rest, index, result =>
    indexedLoop rest (index + 1) (result ++ (toString index ++ ": " ++ path ++ "\n"))

/-- The formatter `IndexedList()`. -/
def IndexedList (σ : Type) : Formatter σ :=
  ⟨fun p w => ((indexedLoop p.Paths 0 "", none), w)⟩

/-- The formatter `ExportCommand()`:
`fmt.Sprintf("export PATH='%s'", strings.Join(p.Paths, ":"))`. -/
def ExportCommand (σ : Type) : Formatter σ :=
  ⟨fun p w => (("export PATH='" ++ strings.Join p.Paths ":" ++ "'", none), w)⟩

/-- The type `Output func(s string) error`. -/
abbrev Output (σ : Type) := String → σ → Option GoError × σ

/-- The struct `Outputter`. -/
structure Outputter (σ : Type) where
  Output : Output σ

/-- The struct `Dumper`. -/
structure Dumper (σ : Type) where
  Formatter : Formatter σ
  Outputters : List (Outputter σ)

/-- The function `MakeDumper`. -/
def MakeDumper {σ : Type} (formatter : Formatter σ) (outputters : List (Outputter σ)) :
    Dumper σ :=
  ⟨formatter, outputters⟩

/-- The loop `for _, out := range d.Outputters` of `Dumper.Dump`, returning at the first
non-nil error. -/
def outputLoop {σ : Type} (formatted : String) :
    List (Outputter σ) → σ → Option GoError × σ
  | [], w => (none, w)
  | out :: rest, w =>
    match out.Output formatted w with
    | (some err, w1) => (some err, w1)
    | (none, w1) => outputLoop formatted rest w1

/-- The method `Dumper.Dump`. -/
def Dumper.Dump {σ : Type} (d : Dumper σ) (p : Paths) (w : σ) : Option GoError × σ :=
  match d.Formatter.Format p w with
  | ((_, some err), w1) => (some err, w1)
  | ((formatted, none), w1) => outputLoop formatted d.Outputters w1

/-- The struct `MultiDumper`. -/
structure MultiDumper (σ : Type) where
  dumpers : List (Dumper σ)

/-- The function `NewMulti`. -/
def NewMulti (σ : Type) : MultiDumper σ :=
  ⟨[]⟩

/-- The method `(*MultiDumper).AddDumper`. -/
def MultiDumper.AddDumper {σ : Type} (m : MultiDumper σ) (formatter : Formatter σ)
    (outputters : List (Outputter σ)) : MultiDumper σ :=
  ⟨m.dumpers ++ [MakeDumper formatter outputters]⟩

/-- The loop of `(*MultiDumper).Dump`; the second argument is the current value of the named
result `err`, which the statement after the loop returns. -/
def dumpLoop {σ : Type} (p : Paths) :
    List (Dumper σ) → Option GoError → σ → Option GoError × σ
  | [], err, w => (err, w)
  | dumper :: rest, _, w =>
    match dumper.Dump p w with
    | (some err, w1) => (some err, w1)
    | (none, w1) => dumpLoop p rest none w1

/-- The method `(*MultiDumper).Dump`; the named result `err` starts as `nil`. -/
def MultiDumper.Dump {σ : Type} (m : MultiDumper σ) (p : Paths) (w : σ) : Option GoError × σ :=
  dumpLoop p m.dumpers none w

/-! ### Observing invocations

To speak about which functions a run invokes, every formatter and outputter is wrapped so that
it behaves as before on the world and appends a record of the call to a log. -/

/-- A recorded call: of the formatter of dumper number `dumper`, or of its outputter number
`sink`, with the argument received and the error returned. -/
inductive Call where
  | format (dumper : Nat) (p : Paths) (err : Option GoError)
  | output (dumper : Nat) (sink : Nat) (text : String) (err : Option GoError)
  deriving DecidableEq

/-- The error a recorded call returned. -/
def Call.err : Call → Option GoError
  | .format _ _ e => e
  | .output _ _ _ e => e

/-- The number of the dumper a recorded call belongs to. -/
def Call.dumper : Call → Nat
  | .format j _ _ => j
  | .output j _ _ _ => j

/-- The formatter `f` of dumper `j`, recording its call. -/
def traceFormatter {σ : Type} (j : Nat) (f : Formatter σ) : Formatter (σ × List Call) :=
  ⟨fun p w => ((f.Format p w.1).1,
    ((f.Format p w.1).2, w.2 ++ [Call.format j p (f.Format p w.1).1.2]))⟩

/-- The outputter `o`, number `i` of dumper `j`, recording its call. -/
def traceOutputter {σ : Type} (j i : Nat) (o : Outputter σ) : Outputter (σ × List Call) :=
  ⟨fun s w => ((o.Output s w.1).1,
    ((o.Output s w.1).2, w.2 ++ [Call.output j i s (o.Output s w.1).1]))⟩

/-- The outputters of dumper `j`, numbered from `i` on, each recording its calls. -/
def traceOutputters {σ : Type} (j : Nat) :
    Nat → List (Outputter σ) → List (Outputter (σ × List Call))
  | _, [] => []
  | i, o :: rest => traceOutputter j i o :: traceOutputters j (i + 1) rest

/-- The dumper `d`, as number `j`, with all its functions recording their calls. -/
def traceDumper {σ : Type} (j : Nat) (d : Dumper σ) : Dumper (σ × List Call) :=
  ⟨traceFormatter j d.Formatter, traceOutputters j 0 d.Outputters⟩

/-- The dumpers of a list, numbered from `j` on, recording their calls. -/
def traceDumpers {σ : Type} : Nat → List (Dumper σ) → List (Dumper (σ × List Call))
  | _, [] => []
  | j, d :: rest => traceDumper j d :: traceDumpers (j + 1) rest

/-- The multi-dumper `m` with all its functions recording their calls. -/
def traceMulti {σ : Type} (m : MultiDumper σ) : MultiDumper (σ × List Call) :=
  ⟨traceDumpers 0 m.dumpers⟩

/-- The calls dumper number `j` makes when `d.Dump(p)` runs in the world `w`: the log of the
recorded dumper started on the empty log. -/
def dumperLog {σ : Type} (j : Nat) (d : Dumper σ) (p : Paths) (w : σ) : List Call :=
  ((traceDumper j d).Dump p (w, [])).2.2

/-- The calls of the run of the dumper at position `j` of `ds`, numbered `base + j`, in the
world at position `j` of `ws`. -/
def nthLog {σ : Type} (p : Paths) (ds : List (Dumper σ)) (ws : List σ) (base j : Nat) :
    List Call :=
  match ds[j]?, ws[j]? with
  | some d, some wj => dumperLog (base + j) d p wj
  | _, _ => []

/-- The formatter calls of a log, in order: dumper number and list received. -/
def formatCalls : List Call → List (Nat × Paths)
  | [] => []
  | .format j p _ :: rest => (j, p) :: formatCalls rest
  | .output _ _ _ _ :: rest => formatCalls rest

/-- The error returned by the last call of a log, `none` for the empty log. -/
def lastErr (log : List Call) : Option GoError :=
  match log.getLast? with
  | none => none
  | some ev => ev.err

/-- A multi-dumper built by successive `AddDumper` calls on `NewMulti()`, one per entry of
`specs`, in order. -/
def build {σ : Type} (specs : List (Formatter σ × List (Outputter σ))) : MultiDumper σ :=
  specs.foldl (fun m s => m.AddDumper s.1 s.2) (NewMulti σ)

/-! ### Test doubles -/

/-- A formatter that always fails with the error `e`. -/
def failingFormatter (σ : Type) (e : GoError) : Formatter σ :=
  ⟨fun _ w => (("", some e), w)⟩

/-- A mock sink: it returns `result` and counts its invocations in the world. -/
def mockSink (result : Option GoError) : Outputter Nat :=
  ⟨fun _ w => (result, w + 1)⟩

/-- A dumper whose first sink fails and whose second sink would succeed. -/
def sampleDumper : Dumper Nat :=
  MakeDumper (IndexedList Nat) [mockSink (some ⟨"disk full"⟩), mockSink none]

/-- Three dumpers to add in turn: the sinks of the first succeed, the first sink of the second
fails, the third would succeed. -/
def sampleSpecs : List (Formatter Nat × List (Outputter Nat)) :=
  [(IndexedList Nat, [mockSink none, mockSink none]),
   (ExportCommand Nat, [mockSink (some ⟨"disk full"⟩), mockSink none]),
   (IndexedList Nat, [mockSink none])]

end dumpers

/-! ## JSON encoding of the list (`MarshalJSON`, `UnmarshalJSON`)

The two methods hand `p.Paths` to `json.Marshal` and `json.Unmarshal` of the Go standard
library.  The encoder treats a Go string as a sequence of bytes and replaces bytes that are not
well-formed UTF-8, so this part works on bytes (natural numbers below 256).  A Lean `String`
stands for the Go string that holds its UTF-8 encoding, `utf8Bytes`; Go strings that are not
well-formed UTF-8 exist only as byte lists. -/

namespace utf8

/-- Modelled from the spec: the constant `utf8.RuneError` (U+FFFD) of the Go standard library,
whose source is not part of the repository. -/
def RuneError : Nat := 0xFFFD

/-- Modelled from the spec: `utf8.EncodeRune` of the Go standard library, whose source is not
part of the repository: the UTF-8 bytes of the rune `r`, those of U+FFFD for a surrogate or a
value above U+10FFFF.  Shifts and masks are written as division and remainder. -/
def EncodeRune (r : Nat) : List Nat :=
  if r ≤ 0x7F then [r]
  else if r ≤ 0x7FF then [0xC0 + r / 64, 0x80 + r % 64]
  else if 0x10FFFF < r ∨ (0xD800 ≤ r ∧ r ≤ 0xDFFF) then [0xEF, 0xBF, 0xBD]
  else if r ≤ 0xFFFF then [0xE0 + r / 4096, 0x80 + r / 64 % 64, 0x80 + r % 64]
  else [0xF0 + r / 262144, 0x80 + r / 4096 % 64, 0x80 + r / 64 % 64, 0x80 + r % 64]

/-- Modelled from the spec: lower bound of the second byte after the first byte `s0`, from the
table `acceptRanges` of the Go package `unicode/utf8`, whose source is not part of the
repository. -/
def acceptLo (s0 : Nat) : Nat :=
  if s0 = 0xE0 then 0xA0 else if s0 = 0xF0 then 0x90 else 0x80

/-- Modelled from the spec: upper bound of the second byte after the first byte `s0`, from the
table `acceptRanges` of the Go package `unicode/utf8`, whose source is not part of the
repository. -/
def acceptHi (s0 : Nat) : Nat :=
  if s0 = 0xED then 0x9F else if s0 = 0xF4 then 0x8F else 0xBF

/-- Modelled from the spec: `utf8.DecodeRune` of the Go standard library, whose source is not
part of the repository: the first rune of `s` and its width in bytes; `(RuneError, 0)` for the
empty input and `(RuneError, 1)` when the input does not start with a well-formed encoding. -/
def DecodeRune : List Nat → Nat × Nat
  | [] => (RuneError, 0)
  | s0 :: rest =>
    if s0 < 0x80 then (s0, 1)
    else if s0 < 0xC2 then (RuneError, 1)
    else if s0 < 0xE0 then
      match rest with
      | s1 :: _ =>
        if 0x80 ≤ s1 ∧ s1 ≤ 0xBF then (s0 % 32 * 64 + s1 % 64, 2) else (RuneError, 1)
      | [] => (RuneError, 1)
    else if s0 < 0xF0 then
      match rest with
      | s1 :: s2 :: _ =>
        if acceptLo s0 ≤ s1 ∧ s1 ≤ acceptHi s0 ∧ 0x80 ≤ s2 ∧ s2 ≤ 0xBF then
          (s0 % 16 * 4096 + s1 % 64 * 64 + s2 % 64, 3)
        else (RuneError, 1)
      | _ => (RuneError, 1)
    else if s0 ≤ 0xF4 then
      match rest with
      | s1 :: s2 :: s3 :: _ =>
        if acceptLo s0 ≤ s1 ∧ s1 ≤ acceptHi s0 ∧ 0x80 ≤ s2 ∧ s2 ≤ 0xBF ∧ 0x80 ≤ s3 ∧ s3 ≤ 0xBF then
          (s0 % 8 * 262144 + s1 % 64 * 4096 + s2 % 64 * 64 + s3 % 64, 4)
        else (RuneError, 1)
      | _ => (RuneError, 1)
    else (RuneError, 1)

end utf8

namespace json

/-- Outcomes of the decoder model other than success.  `invalidPayload` stands for the errors
Go reports (`*json.SyntaxError`, `*json.UnmarshalTypeError`); `notModelled` marks payloads
with a `null` element, which Go accepts and whose effect depends on the previous content of the
slice. -/
inductive Error where
  | invalidPayload
  | notModelled
  deriving DecidableEq

/-- Modelled from the spec: the digit table `hex = "0123456789abcdef"` of the Go package
`encoding/json`, whose source is not part of the repository. -/
def hex (n : Nat) : Nat :=
  if n < 10 then 0x30 + n else 0x61 + (n - 10)

/-- Modelled from the spec: the table `htmlSafeSet` of the Go package `encoding/json`, whose
source is not part of the repository: the ASCII bytes printed as they are, namely all from
space on except the double quote, the ampersand, the angle brackets and the backslash. -/
def htmlSafeSet (b : Nat) : Bool :=
  decide (0x20 ≤ b ∧ b < 0x80 ∧ b ≠ 0x22 ∧ b ≠ 0x26 ∧ b ≠ 0x3C ∧ b ≠ 0x3E ∧ b ≠ 0x5C)

/-- Modelled from the spec: what `appendString` of the Go package `encoding/json` (source not
part of the repository) appends for an ASCII byte: the byte itself, a two-character escape, or
a `\u00XX` escape.  Releases of Go before 1.22 print backspace and form feed as `\u0008` and
`\u000c` instead of `\b` and `\f`; the decoder reads both forms as the same character. -/
def appendASCII (b : Nat) : List Nat :=
  if htmlSafeSet b then [b]
  else if b = 0x5C ∨ b = 0x22 then [0x5C, b]
  else if b = 0x08 then [0x5C, 0x62]
  else if b = 0x0C then [0x5C, 0x66]
  else if b = 0x0A then [0x5C, 0x6E]
  else if b = 0x0D then [0x5C, 0x72]
  else if b = 0x09 then [0x5C, 0x74]
  else [0x5C, 0x75, 0x30, 0x30, hex (b / 16), hex (b % 16)]

/-- Modelled from the spec: one round of the loop of `appendString` of the Go package
`encoding/json` (source not part of the repository) at the byte `b` followed by `rest`: the
bytes appended and the input left.  A byte that starts no well-formed UTF-8 encoding is printed
as the escape of U+FFFD, the runes U+2028 and U+2029 are escaped, other runes are copied. -/
def appendStringStep (b : Nat) (rest : List Nat) : List Nat × List Nat :=
  if b < 0x80 then (appendASCII b, rest)
  else if (utf8.DecodeRune (b :: rest)).1 = utf8.RuneError ∧ (utf8.DecodeRune (b :: rest)).2 = 1 then
    ([0x5C, 0x75, 0x66, 0x66, 0x66, 0x64], rest)
  else if (utf8.DecodeRune (b :: rest)).1 = 0x2028 ∨ (utf8.DecodeRune (b :: rest)).1 = 0x2029 then
    ([0x5C, 0x75, 0x32, 0x30, 0x32, hex ((utf8.DecodeRune (b :: rest)).1 % 16)],
      (b :: rest).drop (utf8.DecodeRune (b :: rest)).2)
  else
    ((b :: rest).take (utf8.DecodeRune (b :: rest)).2,
      (b :: rest).drop (utf8.DecodeRune (b :: rest)).2)

/-- Modelled from the spec: the loop `for i := 0; i < len(src);` of `appendString` (Go package
`encoding/json`, source not part of the repository).  Every round consumes at least one byte,
so a fuel equal to the length of the input is enough. -/
def appendStringLoop : Nat → List Nat → List Nat
  | 0, _ => []
  | _ + 1, [] => []
  | fuel + 1, b :: rest =>
    (appendStringStep b rest).1 ++ appendStringLoop fuel (appendStringStep b rest).2

/-- Modelled from the spec: `appendString` of the Go package `encoding/json` (source not part
of the repository): the JSON string literal for the Go string `src`. -/
def appendString (src : List Nat) : List Nat :=
  [0x22] ++ appendStringLoop src.length src ++ [0x22]

/-- Modelled from the spec: the element loop of the array encoder of the Go package
`encoding/json` (source not part of the repository): a comma before every element but the
first. -/
def arrayLoop : List (List Nat) → Nat → List Nat
  | [], _ => []
  | s :: rest, i => (if 0 < i then [0x2C] else []) ++ appendString s ++ arrayLoop rest (i + 1)

/-- Modelled from the spec: `json.Marshal` of the Go standard library (source not part of the
repository) on a value of type `[]string`: `null` for a nil slice, otherwise the elements as
string literals between brackets; no error arises for this type.  The specification calls the
result "a UTF-8 JSON-equivalent array of strings". -/
def Marshal (isNil : Bool) (v : List (List Nat)) : Except Error (List Nat) :=
  if isNil then .ok [0x6E, 0x75, 0x6C, 0x6C]
  else .ok ([0x5B] ++ arrayLoop v 0 ++ [0x5D])

/-- Modelled from the spec: the white space of JSON as the scanner of the Go package
`encoding/json` (source not part of the repository) accepts it: space, tab, carriage return,
line feed. -/
def isSpace (c : Nat) : Bool :=
  decide (c = 0x20 ∨ c = 0x09 ∨ c = 0x0D ∨ c = 0x0A)

/-- The input after its leading white space. -/
def skipSpace : List Nat → List Nat
  | [] => []
  | c :: rest => if isSpace c then skipSpace rest else c :: rest

/-- Modelled from the spec: the value of a hexadecimal digit in `getu4` of the Go package
`encoding/json` (source not part of the repository). -/
def hexDigit (c : Nat) : Option Nat :=
  if 0x30 ≤ c ∧ c ≤ 0x39 then some (c - 0x30)
  else if 0x61 ≤ c ∧ c ≤ 0x66 then some (c - 0x61 + 10)
  else if 0x41 ≤ c ∧ c ≤ 0x46 then some (c - 0x41 + 10)
  else none

/-- Modelled from the spec: `getu4` of the Go package `encoding/json` (source not part of the
repository): the rune of an escape `\uXXXX` at the start of the input, `none` standing for
the result `-1`. -/
def getu4 : List Nat → Option Nat
  | 0x5C :: 0x75 :: c1 :: c2 :: c3 :: c4 :: _ =>
    match hexDigit c1, hexDigit c2, hexDigit c3, hexDigit c4 with
    | some d1, some d2, some d3, some d4 => some (((d1 * 16 + d2) * 16 + d3) * 16 + d4)
    | _, _, _, _ => none
  | _ => none

/-- Modelled from the spec: `utf16.IsSurrogate` of the Go standard library (source not part of
the repository). -/
def IsSurrogate (r : Nat) : Bool :=
  decide (0xD800 ≤ r ∧ r < 0xE000)

/-- Modelled from the spec: `utf16.DecodeRune` of the Go standard library (source not part of
the repository): the rune of a surrogate pair, U+FFFD when the two values are no pair. -/
def utf16DecodeRune (r1 : Nat) (r2 : Option Nat) : Nat :=
  match r2 with
  | some r2 =>
    if 0xD800 ≤ r1 ∧ r1 < 0xDC00 ∧ 0xDC00 ≤ r2 ∧ r2 < 0xE000 then
      (r1 - 0xD800) * 1024 + (r2 - 0xDC00) + 0x10000
    else 0xFFFD
  | none => 0xFFFD

/-- Modelled from the spec: one round of the loop of `unquote` of the Go package
`encoding/json` (source not part of the repository), on input that does not start with the
closing quote: the rune read and the input left, `none` for text the scanner of the package
rejects (a control character, a bad escape, an unfinished literal). -/
def unquoteStep : List Nat → Option (Nat × List Nat)
  | [] => none
  | c :: rest =>
    if c = 0x5C then
      match rest with
      | [] => none
      | e :: rest1 =>
        if e = 0x22 ∨ e = 0x5C ∨ e = 0x2F then some (e, rest1)
        else if e = 0x62 then some (0x08, rest1)
        else if e = 0x66 then some (0x0C, rest1)
        else if e = 0x6E then some (0x0A, rest1)
        else if e = 0x72 then some (0x0D, rest1)
        else if e = 0x74 then some (0x09, rest1)
        else if e = 0x75 then
          match getu4 (c :: rest) with
          | none => none
          | some rr =>
            if IsSurrogate rr then
              if utf16DecodeRune rr (getu4 ((c :: rest).drop 6)) ≠ 0xFFFD then
                some (utf16DecodeRune rr (getu4 ((c :: rest).drop 6)), (c :: rest).drop 12)
              else some (0xFFFD, (c :: rest).drop 6)
            else some (rr, (c :: rest).drop 6)
        else none
    else if c = 0x22 ∨ c < 0x20 then none
    else if c < 0x80 then some (c, rest)
    else some ((utf8.DecodeRune (c :: rest)).1, (c :: rest).drop (utf8.DecodeRune (c :: rest)).2)

/-- Modelled from the spec: the loop of `unquote` of the Go package `encoding/json` (source not
part of the repository), started after the opening quote: the runes of the literal and the
input after the closing quote.  Every round consumes at least one byte, so a fuel above the
length of the input is enough. -/
def unquoteLoop : Nat → List Nat → List Char → Option (List Char × List Nat)
  | 0, _, _ => none
  | _ + 1, [], _ => none
  | fuel + 1, c :: rest, acc =>
    if c = 0x22 then some (acc, rest)
    else
      match unquoteStep (c :: rest) with
      | none => none
      | some (rr, rest1) => unquoteLoop fuel rest1 (acc ++ [Char.ofNat rr])

/-- The input starts with the literal `null`. -/
def startsWithNull : List Nat → Bool
  | 0x6E :: 0x75 :: 0x6C :: 0x6C :: _ => true
  | _ => false

/-- Modelled from the spec: decoding the elements of a JSON array into a `[]string`, as the Go
package `encoding/json` does (source not part of the repository), started after the opening
bracket of a non-empty array: the strings read and the input after the closing bracket.  An
element that is no string literal is an error in Go (a type mismatch or a syntax error), except
`null`, which is not modelled. -/
def arrayElements : Nat → List Nat → List String → Except Error (List String × List Nat)
  | 0, _, _ => .error .invalidPayload
  | fuel + 1, s, acc =>
    match skipSpace s with
    | [] => .error .invalidPayload
    | c :: rest =>
      if c = 0x22 then
        match unquoteLoop (rest.length + 1) rest [] with
        | none => .error .invalidPayload
        | some (cs, rest1) =>
          match skipSpace rest1 with
          | [] => .error .invalidPayload
          | d :: rest2 =>
            if d = 0x2C then arrayElements fuel rest2 (acc ++ [String.mk cs])
            else if d = 0x5D then .ok (acc ++ [String.mk cs], rest2)
            else .error .invalidPayload
      else if startsWithNull (c :: rest) then .error .notModelled
      else .error .invalidPayload

/-- Modelled from the spec: `json.Unmarshal` of the Go standard library (source not part of the
repository) into a `[]string`: an array of string literals gives its strings, `null` gives the
nil slice (no entries), white space around the tokens is skipped; the specification: "fails
with a DecodeError if the payload is not a well-formed array of strings". -/
def Unmarshal (data : List Nat) : Except Error (List String) :=
  match skipSpace data with
  | [] => .error .invalidPayload
  | c :: rest =>
    if c = 0x5B then
      match skipSpace rest with
      | [] => .error .invalidPayload
      | d :: rest1 =>
        if d = 0x5D then
          if skipSpace rest1 = [] then .ok [] else .error .invalidPayload
        else
          match arrayElements (rest.length + 1) rest [] with
          | .error e => .error e
          | .ok (l, rest2) => if skipSpace rest2 = [] then .ok l else .error .invalidPayload
    else if startsWithNull (c :: rest) then
      if skipSpace ((c :: rest).drop 4) = [] then .ok [] else .error .invalidPayload
    else .error .invalidPayload

/-- What the encoder prints for the rune `r` of a well-formed string. -/
def encodedRune (r : Nat) : List Nat :=
  if r < 0x80 then appendASCII r
  else if r = 0x2028 ∨ r = 0x2029 then [0x5C, 0x75, 0x32, 0x30, 0x32, hex (r % 16)]
  else utf8.EncodeRune r

/-- What the encoder prints between the quotes for a well-formed string. -/
def encodedString (s : String) : List Nat :=
  s.data.flatMap (fun c => encodedRune c.toNat)

end json

namespace fullpath

/-- The bytes of the Go string that a Lean `String` stands for: its UTF-8 encoding. -/
def utf8Bytes (s : String) : List Nat :=
  s.data.flatMap (fun c => utf8.EncodeRune c.toNat)

/-- The method `(*Paths).MarshalJSON`, `json.Marshal(p.Paths)`, on entries given as raw Go
strings; `isNil` tells whether an empty `p.Paths` is the nil slice. -/
def MarshalJSONRaw (entries : List (List Nat)) (isNil : Bool) : Except json.Error (List Nat) :=
  json.Marshal (isNil && entries.isEmpty) entries

/-- The method `(*Paths).MarshalJSON` on a list of well-formed strings. -/
def MarshalJSON (p : Paths) (isNil : Bool) : Except json.Error (List Nat) :=
  MarshalJSONRaw (p.Paths.map utf8Bytes) isNil

/-- The method `(*Paths).UnmarshalJSON`, `json.Unmarshal(data, &p.Paths)`; on an error the
state of `p` is not described. -/
def UnmarshalJSON (_p : Paths) (data : List Nat) : Except json.Error Paths :=
  match json.Unmarshal data with
  | .error err => .error err
  | .ok v => .ok ⟨v⟩

end fullpath

namespace fullpath

/-! ## Auxiliary lemmas: clamping and slicing -/

/-- A slice expression `s[:k]` with `k ≤ len(s)` does not panic and takes the first `k` entries. -/
theorem sliceTo_ok (s : List String) (k : Nat) (h : k ≤ s.length) :
    sliceTo s (k : Int) = .ok (s.take k) := by
  have h2 : ((k : Int) ≤ (s.length : Int)) := by exact_mod_cast h
  simp [sliceTo, h2]

/-- A slice expression `s[k:]` with `k ≤ len(s)` does not panic and drops the first `k` entries. -/
theorem sliceFrom_ok (s : List String) (k : Nat) (h : k ≤ s.length) :
    sliceFrom s (k : Int) = .ok (s.drop k) := by
  have h2 : ((k : Int) ≤ (s.length : Int)) := by exact_mod_cast h
  simp [sliceFrom, h2]

/-- The effective index of `Insert` is at most the length. -/
theorem insertIndex_le (n : Nat) (i : Int) : insertIndex n i ≤ n := by
  unfold insertIndex
  split_ifs <;> omega

/-- The two clamping statements of `Insert` compute `insertIndex`. -/
theorem Insert_clamped (n : Nat) (i : Int) :
    (if (if i < 0 then 0 else i) ≥ (n : Int) then (n : Int) else (if i < 0 then 0 else i))
      = ((insertIndex n i : Nat) : Int) := by
  unfold insertIndex
  split_ifs <;> omega

/-- Closed form of `Insert`: it never panics. -/
theorem Insert_eq (p : Paths) (x : String) (i : Int) :
    Insert p x i = .ok ⟨p.Paths.take (insertIndex p.Paths.length i) ++ [x]
      ++ p.Paths.drop (insertIndex p.Paths.length i)⟩ := by
  unfold Insert
  simp only [Insert_clamped]
  rw [sliceTo_ok _ _ (insertIndex_le _ _), sliceFrom_ok _ _ (insertIndex_le _ _)]
  simp
  rfl

/-- On a non-empty list the effective index of `Remove` is a valid index. -/
theorem removeIndex_lt (n : Nat) (i : Int) (h : 0 < n) : removeIndex n i < n := by
  unfold removeIndex
  split_ifs <;> omega

/-- On a non-empty list the two clamping statements of `Remove` compute `removeIndex`. -/
theorem Remove_clamped (n : Nat) (i : Int) (h : 0 < n) :
    (if (if i < 0 then 0 else i) ≥ (n : Int) then (n : Int) - 1 else (if i < 0 then 0 else i))
      = ((removeIndex n i : Nat) : Int) := by
  unfold removeIndex
  split_ifs <;> omega

/-- Closed form of `Remove` on a non-empty list. -/
theorem Remove_eq (p : Paths) (i : Int) (h : p.Paths ≠ []) :
    Remove p i = .ok ⟨p.Paths.take (removeIndex p.Paths.length i)
      ++ p.Paths.drop (removeIndex p.Paths.length i + 1)⟩ := by
  have hn : 0 < p.Paths.length := List.length_pos.mpr h
  have hk := removeIndex_lt p.Paths.length i hn
  unfold Remove
  simp only [Remove_clamped _ _ hn]
  rw [sliceTo_ok _ _ (le_of_lt hk)]
  have := sliceFrom_ok p.Paths (removeIndex p.Paths.length i + 1) hk
  rw [Nat.cast_succ] at this
  rw [this]
  simp
  rfl

/-- Entries before the insertion point keep their index. -/
theorem getElem?_insertAt_lt (l : List String) (x : String) (k j : Nat) (hk : k ≤ l.length)
    (hj : j < k) : (l.take k ++ [x] ++ l.drop k)[j]? = l[j]? := by
  rw [List.append_assoc, List.getElem?_append_left (by simp; omega), List.getElem?_take_of_lt hj]

/-- The inserted entry sits at the insertion point. -/
theorem getElem?_insertAt_eq (l : List String) (x : String) (k : Nat) (hk : k ≤ l.length) :
    (l.take k ++ [x] ++ l.drop k)[k]? = some x := by
  rw [List.append_assoc, List.getElem?_append_right (by simp)]
  simp [Nat.min_eq_left hk]

/-- Entries from the insertion point on move up by one. -/
theorem getElem?_insertAt_ge (l : List String) (x : String) (k j : Nat) (hk : k ≤ l.length)
    (hj : k ≤ j) : (l.take k ++ [x] ++ l.drop k)[j + 1]? = l[j]? := by
  rw [List.append_assoc, List.getElem?_append_right (by simp; omega)]
  simp only [List.length_take, Nat.min_eq_left hk]
  have : j + 1 - k = (j - k) + 1 := by omega
  rw [this, List.singleton_append, List.getElem?_cons_succ, List.getElem?_drop]
  congr 1; omega

/-- Entries before the removal point keep their index. -/
theorem getElem?_removeAt_lt (l : List String) (k j : Nat) (hk : k < l.length)
    (hj : j < k) : (l.take k ++ l.drop (k + 1))[j]? = l[j]? := by
  rw [List.getElem?_append_left (by simp; omega), List.getElem?_take_of_lt hj]

/-- Entries after the removal point move down by one. -/
theorem getElem?_removeAt_ge (l : List String) (k j : Nat) (hk : k < l.length)
    (hj : k ≤ j) : (l.take k ++ l.drop (k + 1))[j]? = l[j + 1]? := by
  rw [List.getElem?_append_right (by simp; omega)]
  simp only [List.length_take, Nat.min_eq_left (le_of_lt hk)]
  rw [List.getElem?_drop]
  congr 1; omega

/-- An index expression at a valid index returns the entry. -/
theorem indexAt_ok (s : List String) (k : Nat) (x : String) (h : s[k]? = some x) :
    indexAt s (k : Int) = .ok x := by
  have hk : k < s.length := by
    by_contra hc
    rw [List.getElem?_eq_none (by omega)] at h
    exact Option.noConfusion h
  have h2 : ((k : Int) < (s.length : Int)) := by exact_mod_cast hk
  simp [indexAt, h2, h]

/-- An index assignment at a valid index is a point update. -/
theorem assignAt_ok (s : List String) (k : Nat) (v : String) (h : k < s.length) :
    assignAt s (k : Int) v = .ok (s.set k v) := by
  have h2 : ((k : Int) < (s.length : Int)) := by exact_mod_cast h
  simp [assignAt, h2]

/-- Closed form of `Replace` for a valid target. -/
theorem Replace_inRange (p : Paths) (k : Nat) (v : String) (h : k < p.Paths.length) :
    Replace p (k : Int) v = .ok ⟨p.Paths.set k v⟩ := by
  have h2 : ((k : Int) < (p.Paths.length : Int)) := by exact_mod_cast h
  have h3 : ¬ ((k : Int) < 0 ∨ (k : Int) ≥ (p.Paths.length : Int)) := by omega
  unfold Replace
  rw [if_neg h3, assignAt_ok _ _ _ h]
  rfl

/-- The guard of `Replace` returns the list untouched for a target outside `[0, n)`. -/
theorem Replace_outOfRange (p : Paths) (t : Int) (v : String)
    (h : t < 0 ∨ t ≥ (p.Paths.length : Int)) : Replace p t v = .ok p := by
  unfold Replace
  rw [if_pos h]
  rfl

/-- Past its guard, `Move` is `Remove` followed by `Insert` of the entry read at `src`. -/
theorem Move_inRange (p : Paths) (s : Nat) (dst : Int) (x : String) (hx : p.Paths[s]? = some x)
    (hne : (s : Int) ≠ dst) :
    Move p (s : Int) dst = (Remove p (s : Int) >>= fun q => Insert q x dst) := by
  have hk : s < p.Paths.length := by
    by_contra hc
    rw [List.getElem?_eq_none (by omega)] at hx
    exact Option.noConfusion hx
  have h3 : ¬ ((s : Int) ≥ (p.Paths.length : Int) ∨ (s : Int) < 0 ∨ (s : Int) = dst) := by omega
  unfold Move
  rw [if_neg h3, indexAt_ok _ _ _ hx]
  rfl

/-! ## Auxiliary lemmas: the loop of `Deduplicate` -/

/-- The search `stringInSlice` decides list membership. -/
theorem stringInSlice_iff (a : String) (l : List String) : stringInSlice a l = true ↔ a ∈ l := by
  induction l with
  | nil => simp [stringInSlice]
  | cons b rest ih =>
    unfold stringInSlice
    by_cases hb : b = a
    · simp [hb]
    · rw [if_neg hb, ih]
      simp [Ne.symm hb]

/-- A value already collected is skipped. -/
theorem dedupStep_of_mem (acc : List String) (x : String) (h : x ∈ acc) :
    dedupStep acc x = acc := by
  unfold dedupStep
  rw [if_pos ((stringInSlice_iff x acc).mpr h)]

/-- A value not yet collected is appended. -/
theorem dedupStep_of_not_mem (acc : List String) (x : String) (h : x ∉ acc) :
    dedupStep acc x = acc ++ [x] := by
  unfold dedupStep
  rw [if_neg (fun hc => h ((stringInSlice_iff x acc).mp hc))]

/-- Loop invariant of `Deduplicate`: the accumulator stays duplicate-free and holds exactly the
values seen so far. -/
theorem foldl_dedupStep_inv (l acc : List String) (hacc : acc.Nodup) :
    (l.foldl dedupStep acc).Nodup ∧ ∀ x, x ∈ l.foldl dedupStep acc ↔ x ∈ acc ∨ x ∈ l := by
  induction l generalizing acc with
  | nil => simp [hacc]
  | cons y ys ih =>
    rw [List.foldl_cons]
    by_cases hy : y ∈ acc
    · rw [dedupStep_of_mem acc y hy]
      refine ⟨(ih acc hacc).1, fun x => ?_⟩
      rw [(ih acc hacc).2 x, List.mem_cons]
      constructor
      · rintro (h | h)
        · exact Or.inl h
        · exact Or.inr (Or.inr h)
      · rintro (h | h | h)
        · exact Or.inl h
        · exact Or.inl (h ▸ hy)
        · exact Or.inr h
    · rw [dedupStep_of_not_mem acc y hy]
      have hnd : (acc ++ [y]).Nodup := by
        rw [List.nodup_append]
        refine ⟨hacc, List.nodup_singleton y, ?_⟩
        intro a ha hb
        rw [List.mem_singleton] at hb
        exact hy (hb ▸ ha)
      refine ⟨(ih _ hnd).1, fun x => ?_⟩
      rw [(ih _ hnd).2 x, List.mem_append, List.mem_singleton, List.mem_cons]
      tauto

/-- On input without repetitions and disjoint from the accumulator the loop appends everything. -/
theorem foldl_dedupStep_of_nodup (l acc : List String) (h : (acc ++ l).Nodup) :
    l.foldl dedupStep acc = acc ++ l := by
  induction l generalizing acc with
  | nil => simp
  | cons y ys ih =>
    have hy : y ∉ acc := by
      intro hc
      rw [List.nodup_append] at h
      exact h.2.2 hc (List.mem_cons_self y ys)
    rw [List.foldl_cons, dedupStep_of_not_mem acc y hy, ih (acc ++ [y]) (by simpa using h)]
    simp

/-- The loop only ever extends the accumulator by a subsequence of its input. -/
theorem foldl_dedupStep_sublist (l acc : List String) :
    ∃ t, l.foldl dedupStep acc = acc ++ t ∧ t.Sublist l := by
  induction l generalizing acc with
  | nil => exact ⟨[], by simp, List.Sublist.refl _⟩
  | cons y ys ih =>
    rw [List.foldl_cons]
    by_cases hy : y ∈ acc
    · rw [dedupStep_of_mem acc y hy]
      obtain ⟨t, ht, hs⟩ := ih acc
      exact ⟨t, ht, hs.cons y⟩
    · rw [dedupStep_of_not_mem acc y hy]
      obtain ⟨t, ht, hs⟩ := ih (acc ++ [y])
      exact ⟨y :: t, by rw [ht]; simp, hs.cons₂ y⟩

/-- Index-wise description of the loop: entry `i` of the input is appended exactly when it
occurs neither in the starting accumulator nor at an earlier index of the input. -/
theorem foldl_dedupStep_index (l acc : List String) :
    l.foldl dedupStep acc = acc ++ (List.range l.length).filterMap
      (fun i => (l[i]?).bind (fun v => if v ∈ acc ∨ v ∈ l.take i then none else some v)) := by
  induction l generalizing acc with
  | nil => simp
  | cons y ys ih =>
    rw [List.foldl_cons, List.length_cons, List.range_succ_eq_map, List.filterMap_cons,
      List.filterMap_map]
    by_cases hy : y ∈ acc
    · rw [dedupStep_of_mem _ _ hy, ih acc]
      have h0 : ((y :: ys)[0]?).bind
          (fun v => if v ∈ acc ∨ v ∈ (y :: ys).take 0 then none else some v) = none := by
        simp [hy]
      rw [h0]
      congr 1
      apply List.filterMap_congr
      intro i _
      simp only [Function.comp, Nat.succ_eq_add_one, List.getElem?_cons_succ, List.take_succ_cons]
      cases hv : ys[i]? with
      | none => rfl
      | some v =>
        simp only [Option.some_bind, List.mem_cons]
        by_cases hvy : v = y
        · subst hvy
          simp [hy]
        · simp [hvy]
    · rw [dedupStep_of_not_mem _ _ hy, ih (acc ++ [y])]
      have h0 : ((y :: ys)[0]?).bind
          (fun v => if v ∈ acc ∨ v ∈ (y :: ys).take 0 then none else some v) = some y := by
        simp [hy]
      rw [h0]
      simp only [List.append_assoc, List.singleton_append]
      congr 2
      apply List.filterMap_congr
      intro i _
      simp only [Function.comp, Nat.succ_eq_add_one, List.getElem?_cons_succ, List.take_succ_cons]
      cases hv : ys[i]? with
      | none => rfl
      | some v =>
        simp only [Option.some_bind, List.mem_cons, List.mem_append, List.not_mem_nil,
          or_false, or_assoc]

/-- Membership in the first `i` entries means occurring at an index below `i`. -/
theorem mem_take_iff_earlier (l : List String) (i : Nat) (v : String) :
    v ∈ l.take i ↔ ∃ j, j < i ∧ l[j]? = some v := by
  rw [List.mem_iff_getElem?]
  constructor
  · rintro ⟨j, hj⟩
    rw [List.getElem?_take] at hj
    by_cases hji : j < i
    · rw [if_pos hji] at hj
      exact ⟨j, hji, hj⟩
    · rw [if_neg hji] at hj
      exact Option.noConfusion hj
  · rintro ⟨j, hji, hj⟩
    exact ⟨j, by rw [List.getElem?_take, if_pos hji]; exact hj⟩

/-- Started on the empty accumulator, the loop computes `firstOccurrences`. -/
theorem foldl_dedupStep_eq_firstOccurrences (l : List String) :
    l.foldl dedupStep [] = firstOccurrences l := by
  rw [foldl_dedupStep_index, List.nil_append]
  unfold firstOccurrences
  apply List.filterMap_congr
  intro i hi
  rw [List.mem_range] at hi
  rw [List.getElem?_eq_getElem hi, Option.some_bind]
  have hiff : (l[i] ∈ ([] : List String) ∨ l[i] ∈ l.take i) ↔ ¬ (isFirstOccurrence l i = true) := by
    unfold isFirstOccurrence
    rw [decide_eq_true_iff, mem_take_iff_earlier, List.getElem?_eq_getElem hi]
    simp
  by_cases hf : isFirstOccurrence l i = true
  · rw [if_pos hf, if_neg (fun hc => hiff.mp hc hf)]
  · rw [if_neg hf, if_pos (hiff.mpr hf)]

/-! ## Insert and Remove -/

/-- C1: for every list of length `n`, every string `x` and every integer `i`, `Insert(x, i)`
succeeds and yields exactly `take k ++ [x] ++ drop k` of the original list, where `k` is `0`
for `i < 0`, `n` for `i ≥ n` and `i` otherwise; the new length is `n + 1`, the element at
index `k` is `x`, the entries before `k` stay where they were and the entries from `k` on
move up by one position, so all other elements keep their relative order. -/
theorem Insert_spec (p : Paths) (x : String) (i : Int) :
    ∃ q : Paths, Insert p x i = .ok q ∧
      q.Paths = p.Paths.take (insertIndex p.Paths.length i) ++ [x]
        ++ p.Paths.drop (insertIndex p.Paths.length i) ∧
      q.Paths.length = p.Paths.length + 1 ∧
      q.Paths[insertIndex p.Paths.length i]? = some x ∧
      (∀ j, j < insertIndex p.Paths.length i → q.Paths[j]? = p.Paths[j]?) ∧
      (∀ j, insertIndex p.Paths.length i ≤ j → q.Paths[j + 1]? = p.Paths[j]?) := by
  have hk := insertIndex_le p.Paths.length i
  refine ⟨_, Insert_eq p x i, rfl, ?_, ?_, ?_, ?_⟩
  · simp only [List.length_append, List.length_take, List.length_drop, List.length_singleton]
    omega
  · exact getElem?_insertAt_eq _ _ _ hk
  · intro j hj
    exact getElem?_insertAt_lt _ _ _ _ hk hj
  · intro j hj
    exact getElem?_insertAt_ge _ _ _ _ hk hj

/-- C2: for every non-empty list of length `n` and every integer `i`, `Remove(i)` succeeds and
yields exactly `take k ++ drop (k + 1)` of the original list, where `k` is `0` for `i < 0`,
`n - 1` for `i ≥ n` and `i` otherwise; the new length is `n - 1`, the entries before `k` stay
where they were and the entries after `k` move down by one position, so exactly the element
at the clamped index is removed and the order of the others is preserved. -/
theorem Remove_spec (p : Paths) (i : Int) (h : p.Paths ≠ []) :
    ∃ q : Paths, Remove p i = .ok q ∧
      q.Paths = p.Paths.take (removeIndex p.Paths.length i)
        ++ p.Paths.drop (removeIndex p.Paths.length i + 1) ∧
      q.Paths.length = p.Paths.length - 1 ∧
      removeIndex p.Paths.length i < p.Paths.length ∧
      (∀ j, j < removeIndex p.Paths.length i → q.Paths[j]? = p.Paths[j]?) ∧
      (∀ j, removeIndex p.Paths.length i ≤ j → q.Paths[j]? = p.Paths[j + 1]?) := by
  have hk := removeIndex_lt p.Paths.length i (List.length_pos.mpr h)
  refine ⟨_, Remove_eq p i h, rfl, ?_, hk, ?_, ?_⟩
  · simp only [List.length_append, List.length_take, List.length_drop]
    omega
  · intro j hj
    exact getElem?_removeAt_lt _ _ _ hk hj
  · intro j hj
    exact getElem?_removeAt_ge _ _ _ hk hj

/-- Witness of C2 on the list `["a","b","c"]` with the out-of-range index `7`: the last entry
is the one removed. -/
theorem Remove_spec_witness :
    (Paths.mk ["a", "b", "c"]).Paths ≠ [] ∧
      Remove (Paths.mk ["a", "b", "c"]) 7 = .ok (Paths.mk ["a", "b"]) := by
  refine ⟨by decide, ?_⟩
  obtain ⟨q, hq, hval, -⟩ := Remove_spec (Paths.mk ["a", "b", "c"]) 7 (by decide)
  rw [hq]
  congr 1
  cases q
  simp only at hval
  rw [hval]
  decide

/-! ## Faults of the index-taking operations -/

/-- C3 (evaluation at the failing inputs): `Remove` on the empty list clamps its index to
`len - 1 = -1` and the slice expression `p.Paths[:-1]` panics, whatever the index argument;
`Swap` with distinct indexes reads `p.Paths[src]` and `p.Paths[dst]` before the guarded
`Replace` calls, so an out-of-range index panics. -/
theorem Remove_Swap_panic :
    (∀ i : Int, Remove (Paths.mk []) i = .error Panic.sliceBoundsOutOfRange) ∧
      Swap (Paths.mk []) 0 1 = .error Panic.indexOutOfRange ∧
      Swap (Paths.mk ["a", "b", "c"]) 0 3 = .error Panic.indexOutOfRange := by
  refine ⟨?_, rfl, rfl⟩
  intro i
  have hc : (if (if i < 0 then 0 else i) ≥ (0 : Int) then (0 : Int) - 1
      else (if i < 0 then 0 else i)) = -1 := by
    split_ifs <;> omega
  unfold Remove
  simp only [List.length_nil, Nat.cast_zero, hc]
  rfl

/-! ## Move -/

/-- C4: for every list of length `n`, every `src` with `0 ≤ src < n` and every `dst ≠ src`,
`Move(src, dst)` succeeds and equals `Remove(src)` followed by `Insert` of the old element at
`src` at `dst`: the removal yields `take src ++ drop (src + 1)` and the insertion clamps `dst`
against the length `n - 1` of that list (negative becomes `0`, `≥ n - 1` becomes `n - 1`).
In particular `Move(0, 2)` on `["a","b","c"]` yields `["b","c","a"]`. -/
theorem Move_spec (p : Paths) (src dst : Int) (h0 : 0 ≤ src)
    (hn : src < (p.Paths.length : Int)) (hne : dst ≠ src) :
    (∃ (x : String) (q r : Paths),
      p.Paths[src.toNat]? = some x ∧
      Remove p src = .ok q ∧ Insert q x dst = .ok r ∧ Move p src dst = .ok r ∧
      q.Paths = p.Paths.take src.toNat ++ p.Paths.drop (src.toNat + 1) ∧
      r.Paths = q.Paths.take (insertIndex (p.Paths.length - 1) dst) ++ [x]
        ++ q.Paths.drop (insertIndex (p.Paths.length - 1) dst)) ∧
    Move (Paths.mk ["a", "b", "c"]) 0 2 = .ok (Paths.mk ["b", "c", "a"]) := by
  refine ⟨?_, rfl⟩
  obtain ⟨s, rfl⟩ := Int.eq_ofNat_of_zero_le h0
  have hs : s < p.Paths.length := by exact_mod_cast hn
  have hne2 : p.Paths ≠ [] := List.ne_nil_of_length_pos (by omega)
  have hri : removeIndex p.Paths.length (s : Int) = s := by
    unfold removeIndex
    split_ifs <;> omega
  have hx : p.Paths[s]? = some (p.Paths[s]) := List.getElem?_eq_getElem hs
  have hrem := Remove_eq p (s : Int) hne2
  rw [hri] at hrem
  have hlen : (p.Paths.take s ++ p.Paths.drop (s + 1)).length = p.Paths.length - 1 := by
    simp only [List.length_append, List.length_take, List.length_drop]
    omega
  have hins := Insert_eq ⟨p.Paths.take s ++ p.Paths.drop (s + 1)⟩ (p.Paths[s]) dst
  simp only [hlen] at hins
  refine ⟨p.Paths[s], _, _, ?_, hrem, hins, ?_, ?_, rfl⟩
  · simp
  · rw [Move_inRange p s dst _ hx (fun h => hne h.symm), hrem]
    exact hins
  · simp

/-- Witness of C4 on `["a","b","c","d"]`: moving the entry at index `1` to index `9` puts it
last. -/
theorem Move_spec_witness :
    (0 : Int) ≤ 1 ∧ (1 : Int) < ((Paths.mk ["a", "b", "c", "d"]).Paths.length : Int) ∧
      (9 : Int) ≠ 1 ∧
      Move (Paths.mk ["a", "b", "c", "d"]) 1 9 = .ok (Paths.mk ["a", "c", "d", "b"]) := by
  refine ⟨by decide, by decide, by decide, ?_⟩
  obtain ⟨⟨x, q, r, hx, -, -, hmove, hq, hr⟩, -⟩ :=
    Move_spec (Paths.mk ["a", "b", "c", "d"]) 1 9 (by decide) (by decide) (by decide)
  rw [hmove]
  congr 1
  cases r
  cases q
  simp only at hq hr
  rw [hr, hq]
  have hx2 : x = "b" := by
    have : (Paths.mk ["a", "b", "c", "d"]).Paths[(1 : Int).toNat]? = some "b" := by decide
    rw [this] at hx
    exact (Option.some.inj hx).symm
  rw [hx2]
  decide

/-- C5: for every list of length `n` and all integers `src` and `dst`, if `src < 0`, or
`src ≥ n`, or `src = dst`, then `Move(src, dst)` returns normally and leaves the list
unchanged. -/
theorem Move_noop (p : Paths) (src dst : Int)
    (h : src < 0 ∨ src ≥ (p.Paths.length : Int) ∨ src = dst) :
    Move p src dst = .ok p := by
  have h2 : src ≥ (p.Paths.length : Int) ∨ src < 0 ∨ src = dst := by tauto
  unfold Move
  rw [if_pos h2]
  rfl

/-- Witness of C5 on `["a","b"]` with the out-of-range source index `2`. -/
theorem Move_noop_witness :
    ((2 : Int) < 0 ∨ (2 : Int) ≥ ((Paths.mk ["a", "b"]).Paths.length : Int) ∨ (2 : Int) = 0) ∧
      Move (Paths.mk ["a", "b"]) 2 0 = .ok (Paths.mk ["a", "b"]) :=
  ⟨by decide, Move_noop (Paths.mk ["a", "b"]) 2 0 (by decide)⟩

/-! ## Replace and Swap -/

/-- C6: for every list of length `n`, every integer `target` and every string `path`,
`Replace(target, path)` returns normally; if `0 ≤ target < n` the result has the same length,
its element at `target` is `path` and every other element is unchanged; if `target` is outside
`[0, n)` the list is unchanged. -/
theorem Replace_spec (p : Paths) (target : Int) (path : String) :
    ∃ q : Paths, Replace p target path = .ok q ∧
      ((0 ≤ target ∧ target < (p.Paths.length : Int)) →
        q.Paths.length = p.Paths.length ∧
        q.Paths[target.toNat]? = some path ∧
        ∀ j : Nat, j ≠ target.toNat → q.Paths[j]? = p.Paths[j]?) ∧
      (¬ (0 ≤ target ∧ target < (p.Paths.length : Int)) → q = p) := by
  by_cases h : 0 ≤ target ∧ target < (p.Paths.length : Int)
  · obtain ⟨t, rfl⟩ := Int.eq_ofNat_of_zero_le h.1
    have ht : t < p.Paths.length := by exact_mod_cast h.2
    refine ⟨_, Replace_inRange p t path ht, ?_, fun hc => absurd h hc⟩
    intro _
    refine ⟨by simp, ?_, ?_⟩
    · simp [List.getElem?_set_self, ht]
    · intro j hj
      simp only [Int.toNat_ofNat] at hj
      exact List.getElem?_set_ne (Ne.symm hj)
  · refine ⟨p, Replace_outOfRange p target path (by omega), fun hc => absurd hc h, fun _ => rfl⟩

/-- C7: for every list of length `n` and all indexes `a`, `b` with `0 ≤ a < n` and
`0 ≤ b < n`, `Swap(a, b)` returns normally with a list of the same length whose element at `a`
is the old element at `b`, whose element at `b` is the old element at `a`, and whose every
other element is unchanged; when `a = b` the list is unchanged. -/
theorem Swap_spec (p : Paths) (a b : Int)
    (ha : 0 ≤ a ∧ a < (p.Paths.length : Int)) (hb : 0 ≤ b ∧ b < (p.Paths.length : Int)) :
    ∃ q : Paths, Swap p a b = .ok q ∧
      q.Paths.length = p.Paths.length ∧
      q.Paths[a.toNat]? = p.Paths[b.toNat]? ∧
      q.Paths[b.toNat]? = p.Paths[a.toNat]? ∧
      (∀ j : Nat, j ≠ a.toNat → j ≠ b.toNat → q.Paths[j]? = p.Paths[j]?) ∧
      (a = b → q = p) := by
  obtain ⟨s, rfl⟩ := Int.eq_ofNat_of_zero_le ha.1
  obtain ⟨d, rfl⟩ := Int.eq_ofNat_of_zero_le hb.1
  have hs : s < p.Paths.length := by exact_mod_cast ha.2
  have hd : d < p.Paths.length := by exact_mod_cast hb.2
  simp only [Int.toNat_ofNat]
  by_cases hsd : s = d
  · subst hsd
    refine ⟨p, ?_, rfl, rfl, rfl, fun _ _ _ => rfl, fun _ => rfl⟩
    unfold Swap
    rw [if_pos rfl]
    rfl
  · have hne : ¬ ((s : Int) = (d : Int)) := by omega
    have hxs : p.Paths[s]? = some (p.Paths[s]) := List.getElem?_eq_getElem hs
    have hxd : p.Paths[d]? = some (p.Paths[d]) := List.getElem?_eq_getElem hd
    have hd2 : d < (Paths.mk (p.Paths.set s (p.Paths[d]))).Paths.length := by simpa using hd
    have hrun : Swap p (s : Int) (d : Int)
        = .ok ⟨(p.Paths.set s (p.Paths[d])).set d (p.Paths[s])⟩ := by
      unfold Swap
      rw [if_neg hne, indexAt_ok _ _ _ hxs, indexAt_ok _ _ _ hxd]
      show (Replace p (s : Int) (p.Paths[d]) >>= fun q => Replace q (d : Int) (p.Paths[s])) = _
      rw [Replace_inRange p s _ hs]
      exact Replace_inRange _ d _ hd2
    refine ⟨_, hrun, by simp, ?_, ?_, ?_, fun h => absurd h hne⟩
    · rw [List.getElem?_set_ne (Ne.symm hsd), hxd]
      simp [List.getElem?_set_self, hs]
    · rw [hxs]
      simp [List.getElem?_set_self, hd]
    · intro j hjs hjd
      rw [List.getElem?_set_ne (Ne.symm hjd), List.getElem?_set_ne (Ne.symm hjs)]

/-- Witness of C7 on `["a","b","c"]`: swapping indexes `0` and `2` gives `["c","b","a"]`. -/
theorem Swap_spec_witness :
    ((0 : Int) ≤ 0 ∧ (0 : Int) < ((Paths.mk ["a", "b", "c"]).Paths.length : Int)) ∧
      ((0 : Int) ≤ 2 ∧ (2 : Int) < ((Paths.mk ["a", "b", "c"]).Paths.length : Int)) ∧
      ∃ q : Paths, Swap (Paths.mk ["a", "b", "c"]) 0 2 = .ok q ∧
        q.Paths.length = (Paths.mk ["a", "b", "c"]).Paths.length ∧
        q.Paths[(0 : Int).toNat]? = (Paths.mk ["a", "b", "c"]).Paths[(2 : Int).toNat]? ∧
        q.Paths[(2 : Int).toNat]? = (Paths.mk ["a", "b", "c"]).Paths[(0 : Int).toNat]? ∧
        (∀ j : Nat, j ≠ (0 : Int).toNat → j ≠ (2 : Int).toNat →
          q.Paths[j]? = (Paths.mk ["a", "b", "c"]).Paths[j]?) ∧
        ((0 : Int) = 2 → q = Paths.mk ["a", "b", "c"]) :=
  ⟨by decide, by decide, Swap_spec (Paths.mk ["a", "b", "c"]) 0 2 (by decide) (by decide)⟩

/-! ## Deduplicate -/

/-- C8: `Deduplicate` is idempotent: for every list, applying it twice yields the same entries
as applying it once. -/
theorem Deduplicate_idempotent (p : Paths) :
    Deduplicate (Deduplicate p) = Deduplicate p := by
  have hnd : (p.Paths.foldl dedupStep []).Nodup :=
    (foldl_dedupStep_inv p.Paths [] List.nodup_nil).1
  show Paths.mk ((p.Paths.foldl dedupStep []).foldl dedupStep []) = Paths.mk (p.Paths.foldl dedupStep [])
  rw [foldl_dedupStep_of_nodup _ [] (by simpa using hnd), List.nil_append]

/-- C9: for every list, the result of `Deduplicate` is the subsequence of the original that
keeps the element at index `i` exactly when no earlier index `j < i` holds an equal string
(the first occurrence of each value, in the original relative order); it is a sublist of the
original and its length is at most the original length. -/
theorem Deduplicate_firstOccurrences (p : Paths) :
    (Deduplicate p).Paths = firstOccurrences p.Paths ∧
      (Deduplicate p).Paths.Sublist p.Paths ∧
      (Deduplicate p).Paths.length ≤ p.Paths.length := by
  have hsub : (Deduplicate p).Paths.Sublist p.Paths := by
    obtain ⟨t, ht, hs⟩ := foldl_dedupStep_sublist p.Paths []
    show (p.Paths.foldl dedupStep []).Sublist p.Paths
    rw [ht, List.nil_append]
    exact hs
  exact ⟨foldl_dedupStep_eq_firstOccurrences p.Paths, hsub, hsub.length_le⟩

/-- C10: for every list and every string `x`, the result of `Deduplicate` contains `x` exactly
once if `x` occurs in the original list and not at all otherwise: the result has no
duplicates and holds the same set of values as the original. -/
theorem Deduplicate_count (p : Paths) (x : String) :
    (Deduplicate p).Paths.count x = (if x ∈ p.Paths then 1 else 0) ∧
      (Deduplicate p).Paths.Nodup ∧
      (x ∈ (Deduplicate p).Paths ↔ x ∈ p.Paths) := by
  obtain ⟨hnd, hmem⟩ := foldl_dedupStep_inv p.Paths [] List.nodup_nil
  have hx : x ∈ (Deduplicate p).Paths ↔ x ∈ p.Paths := by
    show x ∈ p.Paths.foldl dedupStep [] ↔ x ∈ p.Paths
    rw [hmem x]
    simp
  refine ⟨?_, hnd, hx⟩
  by_cases h : x ∈ p.Paths
  · rw [if_pos h]
    exact List.count_eq_one_of_mem hnd (hx.mpr h)
  · rw [if_neg h]
    exact List.count_eq_zero_of_not_mem (fun hc => h (hx.mp hc))

/-! ## Move as a rearrangement; Insert undone by Remove -/

/-- Closed form of `Move` past its guard. -/
theorem Move_closed (p : Paths) (s : Nat) (dst : Int) (hs : s < p.Paths.length)
    (hne : (s : Int) ≠ dst) :
    Move p (s : Int) dst = .ok ⟨
      (p.Paths.take s ++ p.Paths.drop (s + 1)).take (insertIndex (p.Paths.length - 1) dst)
        ++ [p.Paths[s]]
        ++ (p.Paths.take s ++ p.Paths.drop (s + 1)).drop (insertIndex (p.Paths.length - 1) dst)⟩ := by
  have hne2 : p.Paths ≠ [] := List.ne_nil_of_length_pos (by omega)
  have hri : removeIndex p.Paths.length (s : Int) = s := by
    unfold removeIndex
    split_ifs <;> omega
  have hx : p.Paths[s]? = some (p.Paths[s]) := List.getElem?_eq_getElem hs
  have hrem := Remove_eq p (s : Int) hne2
  rw [hri] at hrem
  have hlen : (p.Paths.take s ++ p.Paths.drop (s + 1)).length = p.Paths.length - 1 := by
    simp only [List.length_append, List.length_take, List.length_drop]
    omega
  have hins := Insert_eq ⟨p.Paths.take s ++ p.Paths.drop (s + 1)⟩ (p.Paths[s]) dst
  simp only [hlen] at hins
  rw [Move_inRange p s dst _ hx hne, hrem]
  exact hins

/-- Splitting a list around a valid index. -/
theorem split_at_index (l : List String) (s : Nat) (hs : s < l.length) :
    l = l.take s ++ l[s] :: l.drop (s + 1) := by
  rw [List.getElem_cons_drop l s hs, List.take_append_drop]

/-- Taking an entry out and putting it back anywhere rearranges the list. -/
theorem perm_reinsert (l : List String) (s k : Nat) (hs : s < l.length) :
    ((l.take s ++ l.drop (s + 1)).take k ++ [l[s]] ++ (l.take s ++ l.drop (s + 1)).drop k).Perm
      l := by
  have h1 : ((l.take s ++ l.drop (s + 1)).take k ++ [l[s]]
      ++ (l.take s ++ l.drop (s + 1)).drop k).Perm (l[s] :: (l.take s ++ l.drop (s + 1))) := by
    rw [List.append_assoc, List.singleton_append]
    refine List.perm_middle.trans ?_
    rw [List.take_append_drop]
  have h2 : (l[s] :: (l.take s ++ l.drop (s + 1))).Perm l := by
    conv_rhs => rw [split_at_index l s hs]
    exact List.perm_middle.symm
  exact h1.trans h2

/-- C18: for every list of length `n` and all integers `src` and `dst`, `Move(src, dst)`
returns normally (its `Remove` is only reached with a valid index on a non-empty list), and
its result is a permutation of the original with the same length `n`; when `0 ≤ src < n` and
`src ≠ dst`, the moved element ends at index `min(max(dst, 0), n - 1)`. -/
theorem Move_perm (p : Paths) (src dst : Int) :
    ∃ q : Paths, Move p src dst = .ok q ∧
      q.Paths.Perm p.Paths ∧
      q.Paths.length = p.Paths.length ∧
      (0 ≤ src → src < (p.Paths.length : Int) → src ≠ dst →
        q.Paths[(min (max dst 0) ((p.Paths.length : Int) - 1)).toNat]? = p.Paths[src.toNat]?) := by
  by_cases hg : src ≥ (p.Paths.length : Int) ∨ src < 0 ∨ src = dst
  · refine ⟨p, ?_, List.Perm.refl _, rfl, ?_⟩
    · unfold Move
      rw [if_pos hg]
      rfl
    · intro h0 hn hne
      omega
  · have h0 : 0 ≤ src := by omega
    obtain ⟨s, rfl⟩ := Int.eq_ofNat_of_zero_le h0
    have hs : s < p.Paths.length := by omega
    have hne : (s : Int) ≠ dst := by omega
    have hperm := perm_reinsert p.Paths s (insertIndex (p.Paths.length - 1) dst) hs
    refine ⟨_, Move_closed p s dst hs hne, hperm, hperm.length_eq, ?_⟩
    intro _ _ _
    have hlen : (p.Paths.take s ++ p.Paths.drop (s + 1)).length = p.Paths.length - 1 := by
      simp only [List.length_append, List.length_take, List.length_drop]
      omega
    have hk : insertIndex (p.Paths.length - 1) dst
        ≤ (p.Paths.take s ++ p.Paths.drop (s + 1)).length := by
      rw [hlen]
      exact insertIndex_le _ _
    have hidx : (min (max dst 0) ((p.Paths.length : Int) - 1)).toNat
        = insertIndex (p.Paths.length - 1) dst := by
      unfold insertIndex
      split_ifs <;> omega
    rw [hidx, Int.toNat_ofNat, List.getElem?_eq_getElem hs]
    exact getElem?_insertAt_eq _ _ _ hk

/-- C19: for every list, every string `x` and every integer `i`, `Insert(x, i)` followed by
`Remove(i)` with the same raw index restores the original list exactly: both operations clamp
`i` to the same effective position. -/
theorem Remove_Insert (p : Paths) (x : String) (i : Int) :
    (Insert p x i >>= fun q => Remove q i) = .ok p ∧
      removeIndex (p.Paths.length + 1) i = insertIndex p.Paths.length i := by
  have hidx : removeIndex (p.Paths.length + 1) i = insertIndex p.Paths.length i := by
    unfold removeIndex insertIndex
    split_ifs <;> omega
  refine ⟨?_, hidx⟩
  have hk := insertIndex_le p.Paths.length i
  rw [Insert_eq]
  show Remove _ i = .ok p
  have hne : (Paths.mk (p.Paths.take (insertIndex p.Paths.length i) ++ [x]
      ++ p.Paths.drop (insertIndex p.Paths.length i))).Paths ≠ [] := by simp
  have hlen : (Paths.mk (p.Paths.take (insertIndex p.Paths.length i) ++ [x]
      ++ p.Paths.drop (insertIndex p.Paths.length i))).Paths.length = p.Paths.length + 1 := by
    simp only [List.length_append, List.length_take, List.length_drop, List.length_singleton]
    omega
  rw [Remove_eq _ i hne, hlen, hidx]
  congr 1
  cases p with
  | mk l =>
    congr 1
    simp only at hk ⊢
    generalize insertIndex l.length i = k at hk
    have h1 : (l.take k ++ [x] ++ l.drop k).take k = l.take k := by
      rw [List.append_assoc, List.take_append_of_le_length (by simp [hk])]
      simp [List.take_take]
    have h2 : (l.take k ++ [x] ++ l.drop k).drop (k + 1) = l.drop k := by
      have hl : (l.take k ++ [x]).length = k + 1 := by simp [hk]
      rw [← hl, List.drop_left]
    rw [h1, h2, List.take_append_drop]

end fullpath

/-! ## Splitting, joining and the formatters -/

namespace strings

/-- The count of the split loop is the number of occurrences of the separator. -/
theorem Count_eq_count (s : List Char) (sep : Char) : Count s sep = s.count sep := by
  induction s with
  | nil => rfl
  | cons c cs ih =>
    unfold Count
    by_cases h : c = sep
    · rw [if_pos h, ih, h, List.count_cons_self]
    · rw [if_neg h, ih, List.count_cons_of_ne (Ne.symm h)]

/-- When `Index` finds nothing, the separator does not occur. -/
theorem Index_none (s : List Char) (sep : Char) (h : Index s sep = none) : Count s sep = 0 := by
  induction s with
  | nil => rfl
  | cons c cs ih =>
    unfold Index at h
    unfold Count
    by_cases hc : c = sep
    · rw [if_pos hc] at h
      exact Option.noConfusion h
    · rw [if_neg hc] at h
      rw [if_neg hc]
      exact ih (Option.map_eq_none'.mp h)

/-- When `Index` finds position `m`, the string is the part before `m`, the separator and the
part after it; the part before holds no separator and the part after holds one occurrence less. -/
theorem Index_some (s : List Char) (sep : Char) (m : Nat) (h : Index s sep = some m) :
    s = s.take m ++ sep :: s.drop (m + 1) ∧ sep ∉ s.take m ∧
      Count (s.drop (m + 1)) sep + 1 = Count s sep := by
  induction s generalizing m with
  | nil => exact Option.noConfusion h
  | cons c cs ih =>
    unfold Index at h
    by_cases hc : c = sep
    · rw [if_pos hc] at h
      have hm : m = 0 := (Option.some.inj h).symm
      subst hm
      subst hc
      refine ⟨by simp, by simp, ?_⟩
      simp [Count]
    · rw [if_neg hc] at h
      obtain ⟨k, hk, hkm⟩ := Option.map_eq_some'.mp h
      subst hkm
      obtain ⟨h1, h2, h3⟩ := ih k hk
      refine ⟨?_, ?_, ?_⟩
      · simp only [List.take_succ_cons, List.drop_succ_cons, List.cons_append]
        rw [← h1]
      · simp only [List.take_succ_cons, List.mem_cons, not_or]
        exact ⟨Ne.symm hc, h2⟩
      · simp only [List.drop_succ_cons]
        rw [h3]
        conv_rhs => unfold Count
        rw [if_neg hc]

/-- With enough cuts allowed the split loop returns one field more than there are separators. -/
theorem genSplit_length (sep : Char) (n : Nat) (s : List Char) (h : Count s sep ≤ n) :
    (genSplit sep n s).length = Count s sep + 1 := by
  induction n generalizing s with
  | zero =>
    have : Count s sep = 0 := by omega
    simp [genSplit, this]
  | succ n ih =>
    unfold genSplit
    cases hi : Index s sep with
    | none => simp [Index_none s sep hi]
    | some m =>
      obtain ⟨-, -, h3⟩ := Index_some s sep m hi
      simp only [List.length_cons]
      rw [ih _ (by omega), h3]

/-- With enough cuts allowed no field of the split loop holds a separator. -/
theorem genSplit_no_sep (sep : Char) (n : Nat) (s : List Char) (h : Count s sep ≤ n) :
    ∀ f ∈ genSplit sep n s, sep ∉ f := by
  induction n generalizing s with
  | zero =>
    intro f hf
    have h0 : Count s sep = 0 := by omega
    simp only [genSplit, List.mem_singleton] at hf
    subst hf
    rw [Count_eq_count] at h0
    exact List.count_eq_zero.mp h0
  | succ n ih =>
    intro f hf
    unfold genSplit at hf
    cases hi : Index s sep with
    | none =>
      rw [hi] at hf
      simp only [List.mem_singleton] at hf
      subst hf
      have h0 := Index_none f sep hi
      rw [Count_eq_count] at h0
      exact List.count_eq_zero.mp h0
    | some m =>
      rw [hi] at hf
      obtain ⟨-, h2, h3⟩ := Index_some s sep m hi
      simp only [List.mem_cons] at hf
      rcases hf with hf | hf
      · subst hf
        exact h2
      · exact ih _ (by omega) f hf

/-- The joining loop commutes with a text put in front of its start value. -/
theorem foldl_join_append (sep a b : String) (fs : List String) :
    fs.foldl (fun b s => b ++ sep ++ s) (a ++ b) = a ++ fs.foldl (fun b s => b ++ sep ++ s) b := by
  induction fs generalizing b with
  | nil => rfl
  | cons f fs ih =>
    simp only [List.foldl_cons]
    rw [String.append_assoc, String.append_assoc, ih, String.append_assoc]

/-- On a non-empty list `Join` is its loop started on the first element. -/
theorem Join_cons (e : String) (rest : List String) (sep : String) :
    Join (e :: rest) sep = rest.foldl (fun b s => b ++ sep ++ s) e := by
  cases rest with
  | nil => rfl
  | cons f fs => rfl

/-- Unfolding `Join` on a list of at least two elements. -/
theorem Join_cons_cons (e f : String) (fs : List String) (sep : String) :
    Join (e :: f :: fs) sep = e ++ sep ++ Join (f :: fs) sep := by
  rw [Join_cons, Join_cons, List.foldl_cons, String.append_assoc, foldl_join_append,
    foldl_join_append, String.append_assoc]

/-- Joining the fields of the split loop with the separator gives back the input. -/
theorem Join_genSplit (sep : Char) (n : Nat) (s : List Char) (h : Count s sep ≤ n) :
    Join ((genSplit sep n s).map String.mk) (String.mk [sep]) = String.mk s := by
  induction n generalizing s with
  | zero => simp [genSplit, Join]
  | succ n ih =>
    unfold genSplit
    cases hi : Index s sep with
    | none => simp [Join]
    | some m =>
      obtain ⟨h1, -, h3⟩ := Index_some s sep m hi
      have hne : genSplit sep n (s.drop (m + 1)) ≠ [] := by
        intro hc
        have := genSplit_length sep n (s.drop (m + 1)) (by omega)
        rw [hc] at this
        simp at this
      obtain ⟨f, fs, hfs⟩ := List.exists_cons_of_ne_nil hne
      have hih := ih (s.drop (m + 1)) (by omega)
      simp only [List.map_cons]
      rw [hfs] at hih ⊢
      simp only [List.map_cons] at hih ⊢
      rw [Join_cons_cons, hih]
      conv_rhs => rw [h1]
      apply String.ext
      simp

/-- The worker of `String.intercalate` is the joining loop. -/
theorem intercalate_go_eq_foldl (acc sep : String) (l : List String) :
    String.intercalate.go acc sep l = l.foldl (fun b s => b ++ sep ++ s) acc := by
  induction l generalizing acc with
  | nil => rfl
  | cons a as ih =>
    simp only [String.intercalate.go, List.foldl_cons]
    exact ih _

/-- The model of `strings.Join` agrees with `String.intercalate`. -/
theorem Join_eq_intercalate (elems : List String) (sep : String) :
    Join elems sep = sep.intercalate elems := by
  cases elems with
  | nil => rfl
  | cons e rest =>
    rw [Join_cons]
    simp only [String.intercalate]
    rw [intercalate_go_eq_foldl]

/-- Joining the fields of a split with the separator gives back the string. -/
theorem Join_Split (s : String) : Join (Split s ':') ":" = s := by
  have h := Join_genSplit ':' (Count s.data ':') s.data (Nat.le_refl _)
  exact h

end strings

namespace dumpers
open fullpath

/-- Concatenation by a left fold commutes with a text put in front of its start value. -/
theorem foldl_append_left (a b : String) (l : List String) :
    l.foldl (· ++ ·) (a ++ b) = a ++ l.foldl (· ++ ·) b := by
  induction l generalizing b with
  | nil => rfl
  | cons x xs ih =>
    simp only [List.foldl_cons]
    rw [String.append_assoc, ih]

/-- Unfolding `String.join` on a non-empty list. -/
theorem String_join_cons (x : String) (xs : List String) :
    String.join (x :: xs) = x ++ String.join xs := by
  unfold String.join
  rw [List.foldl_cons]
  have h := foldl_append_left x "" xs
  simp only [String.append_empty] at h
  simpa using h

/-- The loop of `IndexedList` appends one line per entry, numbered from its start index. -/
theorem indexedLoop_eq (l : List String) (i : Nat) (r : String) :
    indexedLoop l i r =
      r ++ String.join ((l.enumFrom i).map (fun ie => toString ie.1 ++ ": " ++ ie.2 ++ "\n")) := by
  induction l generalizing i r with
  | nil => simp [indexedLoop, String.join]
  | cons x xs ih =>
    unfold indexedLoop
    rw [ih]
    simp only [List.enumFrom_cons, List.map_cons]
    rw [String_join_cons, String.append_assoc]

/-- C13: for every list, the `IndexedList` formatter succeeds and returns the concatenation, in
list order, of `"<i>: <entry>\n"` for each entry at 0-based position `i` written in decimal;
the empty list gives the empty string and `["x","y"]` gives exactly `"0: x\n1: y\n"`. -/
theorem IndexedList_spec (σ : Type) (p : Paths) (w : σ) :
    (IndexedList σ).Format p w =
        ((String.join (p.Paths.enum.map (fun ie => toString ie.1 ++ ": " ++ ie.2 ++ "\n")),
          none), w) ∧
      (IndexedList σ).Format (Paths.mk []) w = (("", none), w) ∧
      (IndexedList σ).Format (Paths.mk ["x", "y"]) w = (("0: x\n1: y\n", none), w) := by
  refine ⟨?_, rfl, ?_⟩
  · show ((indexedLoop p.Paths 0 "", none), w) = _
    rw [indexedLoop_eq]
    simp [List.enum]
  · show ((indexedLoop ["x", "y"] 0 "", none), w) = _
    have : indexedLoop ["x", "y"] 0 "" = "0: x\n1: y\n" := by decide
    rw [this]

/-- C14: for every list, the `ExportCommand` formatter succeeds and returns exactly
`export PATH='` followed by the entries joined with `:` (nothing escaped) followed by `'`,
with no trailing newline; `["/usr/bin","/bin"]` gives exactly `export PATH='/usr/bin:/bin'`. -/
theorem ExportCommand_spec (σ : Type) (p : Paths) (w : σ) :
    (ExportCommand σ).Format p w =
        (("export PATH='" ++ ":".intercalate p.Paths ++ "'", none), w) ∧
      (ExportCommand σ).Format (Paths.mk ["/usr/bin", "/bin"]) w =
        (("export PATH='/usr/bin:/bin'", none), w) := by
  refine ⟨?_, ?_⟩
  · show (("export PATH='" ++ strings.Join p.Paths ":" ++ "'", none), w) = _
    rw [strings.Join_eq_intercalate]
  · show (("export PATH='" ++ strings.Join ["/usr/bin", "/bin"] ":" ++ "'", none), w) = _
    have : "export PATH='" ++ strings.Join ["/usr/bin", "/bin"] ":" ++ "'"
        = "export PATH='/usr/bin:/bin'" := by decide
    rw [this]

/-- C20: for every string `s`, joining with `:` the entries obtained by splitting `s` on `:` (as
`ReadEnv` does) gives back `s`; hence the `ExportCommand` formatter applied to a list loaded
from `s` returns exactly `export PATH='` followed by `s` followed by `'`. -/
theorem ExportCommand_ReadEnv (σ : Type) (getenv : String → String) (p : Paths) (w : σ) :
    strings.Join (strings.Split (getenv "PATH") ':') ":" = getenv "PATH" ∧
      (ExportCommand σ).Format (ReadEnv getenv p) w =
        (("export PATH='" ++ getenv "PATH" ++ "'", none), w) := by
  refine ⟨strings.Join_Split _, ?_⟩
  show (("export PATH='" ++ strings.Join (strings.Split (getenv "PATH") ':') ":" ++ "'", none), w)
    = _
  rw [strings.Join_Split]

end dumpers

namespace fullpath

/-- C11: for every string `s` containing `k` occurrences of `:`, loading `s` as `ReadEnv` does
replaces the entries with exactly `k + 1` fields, none of which contains `:`, and which put
back together with `:` between them spell `s`, so empty fields are kept as empty entries; in
particular `"a:b:c"` yields `["a","b","c"]`, `"a::c"` yields `["a","","c"]` and the empty
string yields `[""]`. -/
theorem ReadEnv_fields (getenv : String → String) (p : Paths) :
    (ReadEnv getenv p).Paths.length = (getenv "PATH").data.count ':' + 1 ∧
      (∀ f ∈ (ReadEnv getenv p).Paths, ':' ∉ f.data) ∧
      ":".intercalate (ReadEnv getenv p).Paths = getenv "PATH" ∧
      ReadEnv (fun _ => "a:b:c") p = Paths.mk ["a", "b", "c"] ∧
      ReadEnv (fun _ => "a::c") p = Paths.mk ["a", "", "c"] ∧
      ReadEnv (fun _ => "") p = Paths.mk [""] := by
  refine ⟨?_, ?_, ?_, rfl, rfl, rfl⟩
  · show ((strings.genSplit ':' (strings.Count (getenv "PATH").data ':')
      (getenv "PATH").data).map String.mk).length = _
    rw [List.length_map, strings.genSplit_length _ _ _ (Nat.le_refl _), strings.Count_eq_count]
  · intro f hf
    have hf2 : f ∈ (strings.genSplit ':' (strings.Count (getenv "PATH").data ':')
        (getenv "PATH").data).map String.mk := hf
    obtain ⟨g, hg, rfl⟩ := List.mem_map.mp hf2
    exact strings.genSplit_no_sep _ _ _ (Nat.le_refl _) g hg
  · rw [← strings.Join_eq_intercalate]
    exact strings.Join_Split _

end fullpath

/-! ## Dumpers: which functions a run invokes -/

namespace dumpers
open fullpath

/-- A successful call in front does not change the error of the last call. -/
theorem lastErr_cons_of_ok (ev : Call) (evs : List Call) (h : ev.err = none) :
    lastErr (ev :: evs) = lastErr evs := by
  cases evs with
  | nil => simp [lastErr, h]
  | cons x xs => simp [lastErr, List.getLast?_cons_cons]

/-- A call before the last of `ev :: evs` is `ev` or a call before the last of `evs`. -/
theorem mem_dropLast_cons (ev x : Call) (evs : List Call) (h : x ∈ (ev :: evs).dropLast) :
    x = ev ∨ x ∈ evs.dropLast := by
  cases evs with
  | nil => simp at h
  | cons y ys =>
    rw [List.dropLast_cons₂] at h
    exact List.mem_cons.mp h

/-- Successful calls in front of a log keep its shape: all but the last succeed, same last error. -/
theorem ok_before_last_append (a b : List Call) (ha : ∀ x ∈ a, x.err = none)
    (hb : ∀ x ∈ b.dropLast, x.err = none) :
    (∀ x ∈ (a ++ b).dropLast, x.err = none) ∧ lastErr (a ++ b) = lastErr b := by
  induction a with
  | nil => exact ⟨hb, rfl⟩
  | cons ev evs ih =>
    have hev : ev.err = none := ha ev (List.mem_cons_self _ _)
    obtain ⟨h1, h2⟩ := ih (fun x hx => ha x (List.mem_cons_of_mem _ hx))
    refine ⟨?_, ?_⟩
    · intro x hx
      rcases mem_dropLast_cons ev x (evs ++ b) hx with h | h
      · rw [h]; exact hev
      · exact h1 x h
    · rw [List.cons_append, lastErr_cons_of_ok _ _ hev, h2]

/-- When all calls but the last succeeded and the last returned no error, all succeeded. -/
theorem all_ok_of_lastErr_none (a : List Call) (h1 : ∀ x ∈ a.dropLast, x.err = none)
    (h2 : lastErr a = none) : ∀ x ∈ a, x.err = none := by
  intro x hx
  rcases List.eq_nil_or_concat a with h | ⟨l, b, h⟩
  · subst h; simp at hx
  · subst h
    simp only [List.concat_eq_append] at *
    rw [List.dropLast_concat] at h1
    rcases List.mem_append.mp hx with hl | hl
    · exact h1 x hl
    · simp only [List.mem_singleton] at hl
      subst hl
      simpa [lastErr] using h2

/-- The formatter calls of a concatenated log. -/
theorem formatCalls_append (a b : List Call) :
    formatCalls (a ++ b) = formatCalls a ++ formatCalls b := by
  induction a with
  | nil => rfl
  | cons ev evs ih =>
    cases ev with
    | format j p e => simp [formatCalls, ih]
    | output j i t e => simp [formatCalls, ih]

/-- The recording outputters behave as the original ones and log the calls `i, i+1, ...` in
order, each with the text, stopping after the first failure. -/
theorem outputLoop_trace {σ : Type} (j : Nat) (t : String) (outs : List (Outputter σ))
    (i : Nat) (w : σ) (log : List Call) :
    ∃ k : Nat, k ≤ outs.length ∧
      ((outputLoop t outs w).1 = none → k = outs.length) ∧
      ((outputLoop t outs w).1 ≠ none → 1 ≤ k) ∧
      outputLoop t (traceOutputters j i outs) (w, log) =
        ((outputLoop t outs w).1, ((outputLoop t outs w).2,
          log ++ (List.range k).map (fun n =>
            Call.output j (i + n) t (if n + 1 = k then (outputLoop t outs w).1 else none)))) := by
  induction outs generalizing i w log with
  | nil => exact ⟨0, Nat.le_refl _, fun _ => rfl, fun h => absurd rfl h, by simp [outputLoop, traceOutputters]⟩
  | cons o rest ih =>
    cases ho : o.Output t w with
    | mk e w1 =>
      cases e with
      | some err =>
        have hrun : outputLoop t (o :: rest) w = (some err, w1) := by
          simp [outputLoop, ho]
        refine ⟨1, by simp, ?_, fun _ => Nat.le_refl _, ?_⟩
        · rw [hrun]; intro h; exact Option.noConfusion h
        · rw [hrun]
          simp [outputLoop, traceOutputters, traceOutputter, ho, List.range_succ]
      | none =>
        have hrun : outputLoop t (o :: rest) w = outputLoop t rest w1 := by
          simp [outputLoop, ho]
        obtain ⟨k, hk1, hk2, hk3, hk4⟩ := ih (i + 1) w1 (log ++ [Call.output j i t none])
        refine ⟨k + 1, by simp; omega, ?_, fun _ => by omega, ?_⟩
        · rw [hrun]; intro h; simp [hk2 h]
        · rw [hrun]
          have hstep : outputLoop t (traceOutputters j i (o :: rest)) (w, log)
              = outputLoop t (traceOutputters j (i + 1) rest)
                  (w1, log ++ [Call.output j i t none]) := by
            simp [outputLoop, traceOutputters, traceOutputter, ho]
          rw [hstep, hk4]
          congr 2
          rw [List.range_succ_eq_map, List.map_cons, List.map_map, List.append_assoc]
          congr 1
          simp only [List.singleton_append, Nat.add_zero, zero_add]
          congr 1
          · by_cases hk0 : k = 0
            · have hres : (outputLoop t rest w1).1 = none := by
                by_contra hc
                have := hk3 hc
                omega
              simp [hk0, hres]
            · have : ¬ (1 = k + 1) := by omega
              simp [this]
          · apply List.map_congr_left
            intro n _
            simp only [Function.comp, Nat.succ_eq_add_one]
            have h1 : i + (n + 1) = i + 1 + n := by omega
            rw [h1]
            by_cases hn : n + 1 = k
            · simp [hn]
            · have : ¬ (n + 1 + 1 = k + 1) := by omega
              simp [hn, this]

/-- In the log of an output loop all calls but the last succeeded and the last returned the result. -/
theorem outputEvents_ok (j i k : Nat) (t : String) (res : Option GoError)
    (hk : res ≠ none → 1 ≤ k) :
    (∀ ev ∈ ((List.range k).map (fun n =>
        Call.output j (i + n) t (if n + 1 = k then res else none))).dropLast, ev.err = none) ∧
      lastErr ((List.range k).map (fun n =>
        Call.output j (i + n) t (if n + 1 = k then res else none))) = res := by
  cases k with
  | zero =>
    have hres : res = none := by
      by_contra hc
      have := hk hc
      omega
    simp [lastErr, hres]
  | succ m =>
    rw [List.range_succ, List.map_append, List.map_singleton, List.dropLast_concat]
    refine ⟨?_, ?_⟩
    · intro ev hev
      obtain ⟨n, hn, rfl⟩ := List.mem_map.mp hev
      have hlt : n < m := List.mem_range.mp hn
      have : ¬ (n + 1 = m + 1) := by omega
      simp [Call.err, this]
    · simp [lastErr, Call.err]

/-- A log of output calls holds no formatter call. -/
theorem formatCalls_outputs (j i k : Nat) (t : String) (f : Nat → Option GoError) :
    formatCalls ((List.range k).map (fun n => Call.output j (i + n) t (f n))) = [] := by
  induction k with
  | zero => rfl
  | succ m ih =>
    rw [List.range_succ, List.map_append, formatCalls_append, ih]
    rfl

/-- The recording dumper behaves as the original one; its log is the formatter call followed by
output calls, all belonging to this dumper, all but the last successful, the last one returning
the result of the dumper. -/
theorem Dump_trace {σ : Type} (j : Nat) (d : Dumper σ) (p : Paths) (w : σ) (log : List Call) :
    ∃ evs : List Call,
      (traceDumper j d).Dump p (w, log) = ((d.Dump p w).1, ((d.Dump p w).2, log ++ evs)) ∧
      formatCalls evs = [(j, p)] ∧
      (∀ ev ∈ evs, ev.dumper = j) ∧
      (∀ ev ∈ evs.dropLast, ev.err = none) ∧
      lastErr evs = (d.Dump p w).1 := by
  cases hf : d.Formatter.Format p w with
  | mk r w1 =>
    cases r with
    | mk s e =>
      cases e with
      | some err =>
        have hrun : d.Dump p w = (some err, w1) := by
          simp [Dumper.Dump, hf]
        refine ⟨[Call.format j p (some err)], ?_, rfl, ?_, ?_, ?_⟩
        · rw [hrun]
          simp [Dumper.Dump, traceDumper, traceFormatter, hf]
        · intro ev hev
          rw [List.mem_singleton.mp hev]
          rfl
        · intro ev hev
          simp at hev
        · rw [hrun]
          rfl
      | none =>
        have hrun : d.Dump p w = outputLoop s d.Outputters w1 := by
          simp [Dumper.Dump, hf]
        obtain ⟨k, -, -, hk3, hk4⟩ :=
          outputLoop_trace j s d.Outputters 0 w1 (log ++ [Call.format j p none])
        obtain ⟨ho1, ho2⟩ := outputEvents_ok j 0 k s (outputLoop s d.Outputters w1).1 hk3
        refine ⟨Call.format j p none :: (List.range k).map (fun n =>
          Call.output j (0 + n) s (if n + 1 = k then (outputLoop s d.Outputters w1).1 else none)),
          ?_, ?_, ?_, ?_, ?_⟩
        · rw [hrun]
          have hstep : (traceDumper j d).Dump p (w, log)
              = outputLoop s (traceOutputters j 0 d.Outputters)
                  (w1, log ++ [Call.format j p none]) := by
            simp [Dumper.Dump, traceDumper, traceFormatter, hf]
          rw [hstep, hk4]
          simp
        · show (j, p) :: formatCalls _ = _
          rw [formatCalls_outputs]
        · intro ev hev
          rcases List.mem_cons.mp hev with h | h
          · rw [h]; rfl
          · obtain ⟨n, -, rfl⟩ := List.mem_map.mp h
            rfl
        · exact (ok_before_last_append [Call.format j p none] _
            (fun x hx => by rw [List.mem_singleton.mp hx]; rfl) ho1).1
        · rw [hrun]
          have := (ok_before_last_append [Call.format j p none] _
            (fun x hx => by rw [List.mem_singleton.mp hx]; rfl) ho1).2
          rw [List.singleton_append] at this
          rw [this, ho2]

/-- The recording dumpers, numbered from `j` on, behave as the original ones; the formatter calls
logged are those of the first `k` dumpers in order, each with the list `p`; every call but the
last succeeded and the last call returned the overall result. -/
theorem dumpLoop_trace {σ : Type} (p : Paths) (ds : List (Dumper σ)) (j : Nat) (w : σ)
    (log : List Call) :
    ∃ (k : Nat) (evs : List Call), k ≤ ds.length ∧
      dumpLoop p (traceDumpers j ds) none (w, log)
        = ((dumpLoop p ds none w).1, ((dumpLoop p ds none w).2, log ++ evs)) ∧
      formatCalls evs = (List.range k).map (fun n => (j + n, p)) ∧
      (∀ ev ∈ evs, j ≤ ev.dumper) ∧
      (evs.map Call.dumper).Pairwise (· ≤ ·) ∧
      (∀ ev ∈ evs.dropLast, ev.err = none) ∧
      lastErr evs = (dumpLoop p ds none w).1 ∧
      ((dumpLoop p ds none w).1 = none → k = ds.length) := by
  induction ds generalizing j w log with
  | nil =>
    exact ⟨0, [], Nat.le_refl _, by simp [dumpLoop, traceDumpers], rfl, by simp, by simp,
      by simp, rfl, fun _ => rfl⟩
  | cons d rest ih =>
    obtain ⟨evs, he1, he2, he3, he4, he5⟩ := Dump_trace j d p w log
    cases hd : d.Dump p w with
    | mk e w1 =>
      rw [hd] at he1 he5
      simp only at he1 he5
      cases e with
      | some err =>
        have hrun : dumpLoop p (d :: rest) none w = (some err, w1) := by
          simp [dumpLoop, hd]
        refine ⟨1, evs, by simp, ?_, ?_, ?_, ?_, he4, ?_, ?_⟩
        · rw [hrun]
          simp [dumpLoop, traceDumpers, he1]
        · rw [he2]; simp [List.range_succ]
        · intro ev hev
          rw [he3 ev hev]
        · rw [List.pairwise_map]
          exact List.pairwise_of_forall_mem_list (fun a ha b hb => by rw [he3 a ha, he3 b hb])
        · rw [hrun]; exact he5
        · rw [hrun]; intro h; exact Option.noConfusion h
      | none =>
        have hrun : dumpLoop p (d :: rest) none w = dumpLoop p rest none w1 := by
          simp [dumpLoop, hd]
        obtain ⟨k, evs2, hk, hr1, hr2, hr3, hr4, hr5, hr6, hr7⟩ := ih (j + 1) w1 (log ++ evs)
        have hall := all_ok_of_lastErr_none evs he4 he5
        obtain ⟨ha1, ha2⟩ := ok_before_last_append evs evs2 hall hr5
        refine ⟨k + 1, evs ++ evs2, by simp; omega, ?_, ?_, ?_, ?_, ha1, ?_, ?_⟩
        · rw [hrun]
          have hstep : dumpLoop p (traceDumpers j (d :: rest)) none (w, log)
              = dumpLoop p (traceDumpers (j + 1) rest) none (w1, log ++ evs) := by
            simp [dumpLoop, traceDumpers, he1]
          rw [hstep, hr1, List.append_assoc]
        · rw [formatCalls_append, he2, hr2, List.range_succ_eq_map, List.map_cons, List.map_map]
          simp only [List.singleton_append, Nat.add_zero]
          congr 1
          apply List.map_congr_left
          intro n _
          simp only [Function.comp, Nat.succ_eq_add_one]
          congr 1
          omega
        · intro ev hev
          rcases List.mem_append.mp hev with h | h
          · rw [he3 ev h]
          · have := hr3 ev h
            omega
        · rw [List.map_append, List.pairwise_append]
          refine ⟨?_, hr4, ?_⟩
          · rw [List.pairwise_map]
            exact List.pairwise_of_forall_mem_list (fun a ha b hb => by rw [he3 a ha, he3 b hb])
          · intro a ha b hb
            obtain ⟨x, hx, rfl⟩ := List.mem_map.mp ha
            obtain ⟨y, hy, rfl⟩ := List.mem_map.mp hb
            have := hr3 y hy
            rw [he3 x hx]
            omega
        · rw [hrun, ha2, hr6]
        · rw [hrun]; intro h; rw [hr7 h]; rfl

/-- Successive `AddDumper` calls append the dumpers in the order of the calls. -/
theorem build_dumpers {σ : Type} (specs : List (Formatter σ × List (Outputter σ)))
    (m : MultiDumper σ) :
    (specs.foldl (fun m s => m.AddDumper s.1 s.2) m).dumpers
      = m.dumpers ++ specs.map (fun s => MakeDumper s.1 s.2) := by
  induction specs generalizing m with
  | nil => simp
  | cons s rest ih =>
    rw [List.foldl_cons, ih]
    simp [MultiDumper.AddDumper]

/-- C15: for every dumper and every list, if the formatter returns an error then `Dump` returns
that same error and invokes none of its outputters: the only call made is the formatter call,
and the world is left as the formatter left it. -/
theorem Dump_format_error {σ : Type} (d : Dumper σ) (p : Paths) (w : σ) (s : String)
    (e : GoError) (w1 : σ) (h : d.Formatter.Format p w = ((s, some e), w1)) :
    d.Dump p w = (some e, w1) ∧
      (traceDumper 0 d).Dump p (w, []) = (some e, (w1, [Call.format 0 p (some e)])) := by
  refine ⟨?_, ?_⟩
  · simp [Dumper.Dump, h]
  · simp [Dumper.Dump, traceDumper, traceFormatter, h]

/-- Witness of C15: a dumper with a failing formatter and a counting sink; the sink is never
invoked (the counter stays `0`). -/
theorem Dump_format_error_witness :
    (MakeDumper (failingFormatter Nat ⟨"bad"⟩) [mockSink none]).Formatter.Format
        (Paths.mk ["x"]) 0 = (("", some ⟨"bad"⟩), 0) ∧
      ((MakeDumper (failingFormatter Nat ⟨"bad"⟩) [mockSink none]).Dump (Paths.mk ["x"]) 0
          = (some ⟨"bad"⟩, 0) ∧
        (traceDumper 0 (MakeDumper (failingFormatter Nat ⟨"bad"⟩) [mockSink none])).Dump
            (Paths.mk ["x"]) (0, [])
          = (some ⟨"bad"⟩, (0, [Call.format 0 (Paths.mk ["x"]) (some ⟨"bad"⟩)]))) :=
  ⟨rfl, Dump_format_error (MakeDumper (failingFormatter Nat ⟨"bad"⟩) [mockSink none])
    (Paths.mk ["x"]) 0 "" ⟨"bad"⟩ 0 rfl⟩

/-- C16: for every dumper whose formatter succeeds with text `t`, `Dump` invokes the outputters
in configured order (numbers `0, 1, ..., k-1`), each with the same text `t`, up to and including
the first one that fails: every logged call but the last returned no error, the last returned
the result of `Dump`, and no further outputter is invoked; `Dump` returns no error exactly
when all outputters were invoked and all succeeded.  In particular, if the first outputter fails
the second is never invoked. -/
theorem Dump_outputs {σ : Type} (d : Dumper σ) (p : Paths) (w : σ) (t : String) (w1 : σ)
    (h : d.Formatter.Format p w = ((t, none), w1)) :
    ∃ (k : Nat) (outputs : List Call), k ≤ d.Outputters.length ∧
      outputs = (List.range k).map (fun n =>
        Call.output 0 n t (if n + 1 = k then (d.Dump p w).1 else none)) ∧
      (traceDumper 0 d).Dump p (w, [])
        = ((d.Dump p w).1, ((d.Dump p w).2, Call.format 0 p none :: outputs)) ∧
      ((d.Dump p w).1 ≠ none → 1 ≤ k) ∧
      ((d.Dump p w).1 = none ↔
        (k = d.Outputters.length ∧ ∀ ev ∈ outputs, ev.err = none)) ∧
      (∀ (o1 o2 : Outputter σ) (rest : List (Outputter σ)) (e : GoError) (w2 : σ),
        d.Outputters = o1 :: o2 :: rest → o1.Output t w1 = (some e, w2) →
          d.Dump p w = (some e, w2) ∧ k = 1) := by
  have hrun : d.Dump p w = outputLoop t d.Outputters w1 := by
    simp [Dumper.Dump, h]
  obtain ⟨k, hk1, hk2, hk3, hk4⟩ := outputLoop_trace 0 t d.Outputters 0 w1 [Call.format 0 p none]
  have htr : (traceDumper 0 d).Dump p (w, [])
      = outputLoop t (traceOutputters 0 0 d.Outputters) (w1, [Call.format 0 p none]) := by
    simp [Dumper.Dump, traceDumper, traceFormatter, h]
  simp only [Nat.zero_add, List.singleton_append] at hk4
  rw [← hrun] at hk2 hk3 hk4
  refine ⟨k, _, hk1, rfl, htr.trans hk4, hk3, ?_, ?_⟩
  · constructor
    · intro hnone
      refine ⟨hk2 hnone, ?_⟩
      intro ev hev
      obtain ⟨n, -, rfl⟩ := List.mem_map.mp hev
      simp [Call.err, hnone]
    · rintro ⟨-, hall⟩
      by_contra hc
      have hk := hk3 hc
      have hmem : Call.output 0 (k - 1) t (if k - 1 + 1 = k then (d.Dump p w).1 else none)
          ∈ (List.range k).map (fun n =>
            Call.output 0 n t (if n + 1 = k then (d.Dump p w).1 else none)) :=
        List.mem_map.mpr ⟨k - 1, List.mem_range.mpr (by omega), rfl⟩
      have := hall _ hmem
      have hk' : k - 1 + 1 = k := by omega
      simp only [Call.err, hk', if_true] at this
      exact hc this
  · intro o1 o2 rest e w2 houts ho1
    have hd : d.Dump p w = (some e, w2) := by
      rw [hrun, houts]
      simp [outputLoop, ho1]
    refine ⟨hd, ?_⟩
    have hdirect : outputLoop t (traceOutputters 0 0 d.Outputters) (w1, [Call.format 0 p none])
        = (some e, (w2, [Call.format 0 p none, Call.output 0 0 t (some e)])) := by
      rw [houts]
      simp [outputLoop, traceOutputters, traceOutputter, ho1]
    rw [hk4, hd] at hdirect
    have hlen := congrArg (fun r => r.2.2.length) hdirect
    simp at hlen
    exact hlen

/-- Witness of C16: the sample dumper has a first sink that fails and a second sink that would
succeed. -/
theorem Dump_outputs_witness :
    sampleDumper.Formatter.Format (Paths.mk ["x"]) 0 = (("0: x\n", none), 0) ∧
      ∃ (k : Nat) (outputs : List Call), k ≤ sampleDumper.Outputters.length ∧
        outputs = (List.range k).map (fun n =>
          Call.output 0 n "0: x\n"
            (if n + 1 = k then (sampleDumper.Dump (Paths.mk ["x"]) 0).1 else none)) ∧
        (traceDumper 0 sampleDumper).Dump (Paths.mk ["x"]) (0, [])
          = ((sampleDumper.Dump (Paths.mk ["x"]) 0).1, ((sampleDumper.Dump (Paths.mk ["x"]) 0).2,
              Call.format 0 (Paths.mk ["x"]) none :: outputs)) ∧
        ((sampleDumper.Dump (Paths.mk ["x"]) 0).1 ≠ none → 1 ≤ k) ∧
        ((sampleDumper.Dump (Paths.mk ["x"]) 0).1 = none ↔
          (k = sampleDumper.Outputters.length ∧ ∀ ev ∈ outputs, ev.err = none)) ∧
        (∀ (o1 o2 : Outputter Nat) (rest : List (Outputter Nat)) (e : GoError) (w2 : Nat),
          sampleDumper.Outputters = o1 :: o2 :: rest → o1.Output "0: x\n" 0 = (some e, w2) →
            sampleDumper.Dump (Paths.mk ["x"]) 0 = (some e, w2) ∧ k = 1) :=
  ⟨rfl, Dump_outputs sampleDumper (Paths.mk ["x"]) 0 "0: x\n" 0 rfl⟩

/-- The log only grows: a recorded output loop started on a log `log` appends to it what it
appends to the empty log. -/
theorem outputLoop_trace_log {σ : Type} (t : String) (outs : List (Outputter (σ × List Call)))
    (hout : ∀ o ∈ outs, ∃ (j i : Nat) (o0 : Outputter σ), o = traceOutputter j i o0)
    (w : σ) (log : List Call) :
    outputLoop t outs (w, log)
      = ((outputLoop t outs (w, [])).1,
          ((outputLoop t outs (w, [])).2.1, log ++ (outputLoop t outs (w, [])).2.2)) := by
  induction outs generalizing w log with
  | nil => simp [outputLoop]
  | cons o rest ih =>
    obtain ⟨j, i, o0, rfl⟩ := hout o (List.mem_cons_self _ _)
    have hrest : ∀ o ∈ rest, ∃ (j i : Nat) (o0 : Outputter σ), o = traceOutputter j i o0 :=
      fun o ho => hout o (List.mem_cons_of_mem _ ho)
    cases ho : o0.Output t w with
    | mk e w1 =>
      cases e with
      | some err => simp [outputLoop, traceOutputter, ho]
      | none =>
        have h1 : outputLoop t (traceOutputter j i o0 :: rest) (w, log)
            = outputLoop t rest (w1, log ++ [Call.output j i t none]) := by
          simp [outputLoop, traceOutputter, ho]
        have h2 : outputLoop t (traceOutputter j i o0 :: rest) (w, [])
            = outputLoop t rest (w1, [Call.output j i t none]) := by
          simp [outputLoop, traceOutputter, ho]
        rw [h1, h2, ih hrest w1 (log ++ [Call.output j i t none]),
          ih hrest w1 [Call.output j i t none]]
        simp

/-- Every recording outputter of a dumper is the wrapper of an original outputter. -/
theorem traceOutputters_mem {σ : Type} (j : Nat) (outs : List (Outputter σ)) (i : Nat) :
    ∀ o ∈ traceOutputters j i outs, ∃ (j i : Nat) (o0 : Outputter σ), o = traceOutputter j i o0 := by
  induction outs generalizing i with
  | nil => intro o ho; simp [traceOutputters] at ho
  | cons o0 rest ih =>
    intro o ho
    simp only [traceOutputters, List.mem_cons] at ho
    rcases ho with h | h
    · exact ⟨j, i, o0, h⟩
    · exact ih (i + 1) o h

/-- A recorded dumper run on a log `log` returns what the original dumper returns, leaves the
world the original leaves, and appends to the log the calls of `dumperLog`. -/
theorem Dump_trace_log {σ : Type} (j : Nat) (d : Dumper σ) (p : Paths) (w : σ)
    (log : List Call) :
    (traceDumper j d).Dump p (w, log)
      = ((d.Dump p w).1, ((d.Dump p w).2, log ++ dumperLog j d p w)) := by
  obtain ⟨evs, he, -⟩ := Dump_trace j d p w []
  have hpre : (traceDumper j d).Dump p (w, log)
      = (((traceDumper j d).Dump p (w, [])).1,
          (((traceDumper j d).Dump p (w, [])).2.1,
            log ++ ((traceDumper j d).Dump p (w, [])).2.2)) := by
    cases hf : d.Formatter.Format p w with
    | mk r w1 =>
      cases r with
      | mk s e =>
        cases e with
        | some err => simp [Dumper.Dump, traceDumper, traceFormatter, hf]
        | none =>
          have h1 : (traceDumper j d).Dump p (w, log)
              = outputLoop s (traceOutputters j 0 d.Outputters)
                  (w1, log ++ [Call.format j p none]) := by
            simp [Dumper.Dump, traceDumper, traceFormatter, hf]
          have h2 : (traceDumper j d).Dump p (w, [])
              = outputLoop s (traceOutputters j 0 d.Outputters)
                  (w1, [Call.format j p none]) := by
            simp [Dumper.Dump, traceDumper, traceFormatter, hf]
          rw [h1, h2, outputLoop_trace_log s _ (traceOutputters_mem j d.Outputters 0) w1
              (log ++ [Call.format j p none]),
            outputLoop_trace_log s _ (traceOutputters_mem j d.Outputters 0) w1
              [Call.format j p none]]
          simp
  rw [hpre]
  unfold dumperLog
  rw [he]

/-- The calls of the first run. -/
theorem nthLog_zero {σ : Type} (p : Paths) (d : Dumper σ) (rest : List (Dumper σ)) (w : σ)
    (ws : List σ) (base : Nat) :
    nthLog p (d :: rest) (w :: ws) base 0 = dumperLog base d p w := by
  simp [nthLog]

/-- The calls of a later run, seen from the rest of the list. -/
theorem nthLog_succ {σ : Type} (p : Paths) (d : Dumper σ) (rest : List (Dumper σ)) (w : σ)
    (ws : List σ) (base j : Nat) :
    nthLog p (d :: rest) (w :: ws) base (j + 1) = nthLog p rest ws (base + 1) j := by
  have h : base + (j + 1) = base + 1 + j := by omega
  simp [nthLog, h]

/-- The loop of `MultiDumper.Dump` runs the dumpers `0, ..., k-1` through their own `Dump`, each
in the world the previous one left; all but the last return no error and the last returns the
result of the loop; the recorded loop logs the calls of these runs one after the other. -/
theorem dumpLoop_runs {σ : Type} (p : Paths) (ds : List (Dumper σ)) (base : Nat) (w : σ)
    (log : List Call) :
    ∃ (k : Nat) (ws : List σ), k ≤ ds.length ∧ ws.length = k + 1 ∧ ws[0]? = some w ∧
      ws[k]? = some (dumpLoop p ds none w).2 ∧
      (∀ j, j < k → ∃ (d : Dumper σ) (wj wj1 : σ), ds[j]? = some d ∧ ws[j]? = some wj ∧
        ws[j + 1]? = some wj1 ∧
        d.Dump p wj = ((if j + 1 = k then (dumpLoop p ds none w).1 else none), wj1)) ∧
      ((dumpLoop p ds none w).1 = none → k = ds.length) ∧
      ((dumpLoop p ds none w).1 ≠ none → 1 ≤ k) ∧
      dumpLoop p (traceDumpers base ds) none (w, log)
        = ((dumpLoop p ds none w).1, ((dumpLoop p ds none w).2,
            log ++ (List.range k).flatMap (nthLog p ds ws base))) := by
  induction ds generalizing base w log with
  | nil =>
    refine ⟨0, [w], Nat.le_refl _, rfl, by simp, by simp [dumpLoop], ?_, fun _ => rfl, fun h => absurd rfl h, ?_⟩
    · intro j hj
      omega
    · simp [dumpLoop, traceDumpers]
  | cons d rest ih =>
    have htr := Dump_trace_log base d p w log
    cases hd : d.Dump p w with
    | mk e w1 =>
      rw [hd] at htr
      simp only at htr
      cases e with
      | some err =>
        have hrun : dumpLoop p (d :: rest) none w = (some err, w1) := by
          simp [dumpLoop, hd]
        rw [hrun]
        refine ⟨1, [w, w1], by simp, rfl, by simp, by simp, ?_, ?_, fun _ => Nat.le_refl _, ?_⟩
        · intro j hj
          have hj0 : j = 0 := by omega
          subst hj0
          exact ⟨d, w, w1, by simp, by simp, by simp, by simpa using hd⟩
        · intro h
          exact Option.noConfusion h
        · simp only [dumpLoop, traceDumpers, htr]
          simp [List.range_succ, nthLog_zero]
      | none =>
        have hrun : dumpLoop p (d :: rest) none w = dumpLoop p rest none w1 := by
          simp [dumpLoop, hd]
        obtain ⟨k, ws, hk, hlen, h0, hlast, hsteps, hnone, hsome, hlog⟩ :=
          ih (base + 1) w1 (log ++ dumperLog base d p w)
        rw [hrun]
        refine ⟨k + 1, w :: ws, by simp; omega, by simp [hlen], by simp, ?_, ?_, ?_,
          fun _ => by omega, ?_⟩
        · simpa using hlast
        · intro j hj
          cases j with
          | zero =>
            refine ⟨d, w, w1, by simp, by simp, by simpa using h0, ?_⟩
            by_cases hk0 : k = 0
            · have hres : (dumpLoop p rest none w1).1 = none := by
                by_contra hc
                have := hsome hc
                omega
              simp [hk0, hres, hd]
            · have : ¬ (0 + 1 = k + 1) := by omega
              simp [this, hd]
          | succ j' =>
            obtain ⟨d', wj, wj1, e1, e2, e3, e4⟩ := hsteps j' (by omega)
            refine ⟨d', wj, wj1, by simpa using e1, by simpa using e2, by simpa using e3, ?_⟩
            rw [e4]
            by_cases hjk : j' + 1 = k
            · simp [hjk]
            · have : ¬ (j' + 1 + 1 = k + 1) := by omega
              simp [hjk, this]
        · intro h
          rw [hnone h]
          rfl
        · have hstep : dumpLoop p (traceDumpers base (d :: rest)) none (w, log)
              = dumpLoop p (traceDumpers (base + 1) rest) none
                  (w1, log ++ dumperLog base d p w) := by
            simp [dumpLoop, traceDumpers, htr]
          rw [hstep, hlog, List.range_succ_eq_map, List.flatMap_cons, List.flatMap_map,
            nthLog_zero, List.append_assoc]
          congr 4
          apply List.flatMap_congr
          intro j _
          simp only [Function.comp, Nat.succ_eq_add_one]
          rw [nthLog_succ]

/-- C17: for every multi-dumper built by successive `AddDumper` calls and every list, the
dumpers held are those added, in the order added, each with its formatter and all its
outputters.  `Dump` runs the dumpers `0, 1, ..., k-1` through their own `Dump`, all against the
same list, each in the world the previous one left: all but the last return no error, the last
returns the result of `Dump`, no later dumper runs, and the calls recorded are exactly those
of these runs, one run after the other (formatter and sinks).  When the result is no error all
dumpers ran; with no dumper added the result is no error.  On the sample of three dumpers the
first sink of the second dumper fails: `Dump` returns that error, the second sink of that
dumper and the third dumper are never invoked. -/
theorem MultiDumper_Dump_spec {σ : Type} (specs : List (Formatter σ × List (Outputter σ)))
    (p : Paths) (w : σ) :
    (build specs).dumpers = specs.map (fun s => Dumper.mk s.1 s.2) ∧
      (∃ (k : Nat) (ws : List σ), k ≤ specs.length ∧ ws.length = k + 1 ∧ ws[0]? = some w ∧
        ws[k]? = some ((build specs).Dump p w).2 ∧
        (∀ j, j < k → ∃ (s : Formatter σ × List (Outputter σ)) (wj wj1 : σ),
          specs[j]? = some s ∧ ws[j]? = some wj ∧ ws[j + 1]? = some wj1 ∧
          (Dumper.mk s.1 s.2).Dump p wj
            = ((if j + 1 = k then ((build specs).Dump p w).1 else none), wj1)) ∧
        (((build specs).Dump p w).1 = none → k = specs.length) ∧
        (((build specs).Dump p w).1 ≠ none → 1 ≤ k) ∧
        (traceMulti (build specs)).Dump p (w, [])
          = (((build specs).Dump p w).1, (((build specs).Dump p w).2,
              (List.range k).flatMap
                (nthLog p (specs.map (fun s => Dumper.mk s.1 s.2)) ws 0)))) ∧
      (∃ (k : Nat) (log : List Call), k ≤ specs.length ∧
        (traceMulti (build specs)).Dump p (w, [])
          = (((build specs).Dump p w).1, (((build specs).Dump p w).2, log)) ∧
        formatCalls log = (List.range k).map (fun j => (j, p)) ∧
        (log.map Call.dumper).Pairwise (· ≤ ·) ∧
        (∀ ev ∈ log.dropLast, ev.err = none) ∧
        lastErr log = ((build specs).Dump p w).1 ∧
        (((build specs).Dump p w).1 = none → k = specs.length)) ∧
      (NewMulti σ).Dump p w = (none, w) ∧
      (build sampleSpecs).Dump (Paths.mk ["x"]) 0 = (some ⟨"disk full"⟩, 3) ∧
      (traceMulti (build sampleSpecs)).Dump (Paths.mk ["x"]) (0, [])
        = (some ⟨"disk full"⟩, (3,
            [Call.format 0 (Paths.mk ["x"]) none,
             Call.output 0 0 "0: x\n" none,
             Call.output 0 1 "0: x\n" none,
             Call.format 1 (Paths.mk ["x"]) none,
             Call.output 1 0 "export PATH='x'" (some ⟨"disk full"⟩)])) := by
  have hb : (build specs).dumpers = specs.map (fun s => Dumper.mk s.1 s.2) := by
    unfold build
    rw [build_dumpers]
    rfl
  have hlenb : (build specs).dumpers.length = specs.length := by
    rw [hb, List.length_map]
  refine ⟨hb, ?_, ?_, rfl, by decide, by decide⟩
  · obtain ⟨k, ws, hk, hlen, h0, hlast, hsteps, hnone, hsome, hlog⟩ :=
      dumpLoop_runs p (build specs).dumpers 0 w []
    refine ⟨k, ws, by omega, hlen, h0, hlast, ?_, fun h => by rw [← hlenb]; exact hnone h,
      hsome, ?_⟩
    · intro j hj
      obtain ⟨d, wj, wj1, e1, e2, e3, e4⟩ := hsteps j hj
      rw [hb, List.getElem?_map] at e1
      obtain ⟨s, hs, rfl⟩ := Option.map_eq_some'.mp e1
      exact ⟨s, wj, wj1, hs, e2, e3, e4⟩
    · rw [← hb]
      simpa [MultiDumper.Dump, traceMulti] using hlog
  · obtain ⟨k, evs, hk, h1, h2, -, h4, h5, h6, h7⟩ := dumpLoop_trace p (build specs).dumpers 0 w []
    refine ⟨k, evs, by omega, ?_, ?_, h4, h5, h6, fun h => by rw [← hlenb]; exact h7 h⟩
    · simpa [MultiDumper.Dump, traceMulti] using h1
    · simpa using h2

end dumpers

/-! ## JSON: encoding followed by decoding -/

namespace utf8

/-- Decoding the encoding of a Unicode scalar value gives the value and the width of its encoding. -/
theorem DecodeRune_EncodeRune (r : Nat) (rest : List Nat)
    (hr : r < 0xD800 ∨ (0xDFFF < r ∧ r < 0x110000)) :
    DecodeRune (EncodeRune r ++ rest) = (r, (EncodeRune r).length) := by
  unfold EncodeRune
  by_cases h1 : r ≤ 0x7F
  · rw [if_pos h1]
    simp only [List.singleton_append, DecodeRune, List.length_singleton]
    rw [if_pos (by omega)]
  · rw [if_neg h1]
    by_cases h2 : r ≤ 0x7FF
    · rw [if_pos h2]
      simp only [List.cons_append, List.nil_append, DecodeRune, List.length_cons, List.length_nil]
      rw [if_neg (by omega), if_neg (by omega), if_pos (by omega), if_pos (by omega)]
      congr 1
      omega
    · rw [if_neg h2, if_neg (by omega)]
      by_cases h3 : r ≤ 0xFFFF
      · rw [if_pos h3]
        simp only [List.cons_append, List.nil_append, DecodeRune, List.length_cons, List.length_nil]
        rw [if_neg (by omega), if_neg (by omega), if_neg (by omega), if_pos (by omega)]
        rw [if_pos (by unfold acceptLo acceptHi; split_ifs <;> omega)]
        congr 1
        omega
      · rw [if_neg h3]
        simp only [List.cons_append, List.nil_append, DecodeRune, List.length_cons, List.length_nil]
        rw [if_neg (by omega), if_neg (by omega), if_neg (by omega), if_neg (by omega), if_pos (by omega)]
        rw [if_pos (by unfold acceptLo acceptHi; split_ifs <;> omega)]
        congr 1
        omega

/-- An ASCII rune is encoded as itself. -/
theorem EncodeRune_ascii (r : Nat) (h : r < 0x80) : EncodeRune r = [r] := by
  unfold EncodeRune
  rw [if_pos (by omega)]

/-- The encoding of a scalar value from U+0080 on has at least two bytes and a first byte of at
least `0xC2`. -/
theorem EncodeRune_head (r : Nat) (h : 0x80 ≤ r)
    (hr : r < 0xD800 ∨ (0xDFFF < r ∧ r < 0x110000)) :
    ∃ b t, EncodeRune r = b :: t ∧ 0xC2 ≤ b ∧ 2 ≤ (EncodeRune r).length := by
  unfold EncodeRune
  rw [if_neg (by omega)]
  by_cases h2 : r ≤ 0x7FF
  · rw [if_pos h2]
    exact ⟨_, _, rfl, by omega, by simp⟩
  · rw [if_neg h2, if_neg (by omega)]
    by_cases h3 : r ≤ 0xFFFF
    · rw [if_pos h3]
      exact ⟨_, _, rfl, by omega, by simp⟩
    · rw [if_neg h3]
      exact ⟨_, _, rfl, by omega, by simp⟩

end utf8

namespace json
open fullpath

/-- Reading a printed hexadecimal digit gives its value. -/
theorem hexDigit_hex (n : Nat) (h : n < 16) : hexDigit (hex n) = some n := by
  interval_cases n <;> rfl

/-- Reading the escape printed for an ASCII byte gives the byte. -/
theorem getu4_escape (b : Nat) (h : b < 0x80) (rest : List Nat) :
    getu4 (0x5C :: 0x75 :: 0x30 :: 0x30 :: hex (b / 16) :: hex (b % 16) :: rest) = some b := by
  have h1 : hexDigit (hex (b / 16)) = some (b / 16) := hexDigit_hex _ (by omega)
  have h2 : hexDigit (hex (b % 16)) = some (b % 16) := hexDigit_hex _ (by omega)
  have h0 : hexDigit 0x30 = some 0 := rfl
  simp only [getu4, h0, h1, h2]
  congr 1
  omega

/-- Unfolding the encoder loop on non-empty input. -/
theorem appendStringLoop_cons (fuel b : Nat) (rest : List Nat) :
    appendStringLoop (fuel + 1) (b :: rest)
      = (appendStringStep b rest).1 ++ appendStringLoop fuel (appendStringStep b rest).2 := rfl

/-- The encoder prints `encodedRune r` for a rune `r` met in well-formed input. -/
theorem appendStringLoop_rune (r : Nat) (rest : List Nat) (fuel : Nat)
    (hr : r < 0xD800 ∨ (0xDFFF < r ∧ r < 0x110000)) :
    appendStringLoop (fuel + 1) (utf8.EncodeRune r ++ rest)
      = encodedRune r ++ appendStringLoop fuel rest := by
  by_cases h : r < 0x80
  · rw [utf8.EncodeRune_ascii r h, List.singleton_append, appendStringLoop_cons]
    unfold appendStringStep encodedRune
    rw [if_pos h, if_pos h]
  · obtain ⟨b, t, hbt, hb, hlen⟩ := utf8.EncodeRune_head r (by omega) hr
    have hdec := utf8.DecodeRune_EncodeRune r rest hr
    rw [hbt] at hdec hlen
    rw [List.cons_append] at hdec
    have h3 : (b :: (t ++ rest)).drop (b :: t).length = rest := by
      rw [← List.cons_append, List.drop_left]
    have h4 : (b :: (t ++ rest)).take (b :: t).length = b :: t := by
      rw [← List.cons_append, List.take_left]
    rw [hbt, List.cons_append, appendStringLoop_cons]
    unfold appendStringStep encodedRune
    rw [if_neg (by omega), if_neg h, hdec]
    simp only
    rw [if_neg (by intro hc; omega), h3, h4]
    by_cases h2 : r = 0x2028 ∨ r = 0x2029
    · rw [if_pos h2, if_pos h2]
    · rw [if_neg h2, if_neg h2, hbt]

/-- The decoder reads back the rune `r` from what the encoder printed for it, and that text
does not start with a quote. -/
theorem unquoteStep_rune (r : Nat) (rest : List Nat)
    (hr : r < 0xD800 ∨ (0xDFFF < r ∧ r < 0x110000)) :
    ∃ b t, encodedRune r ++ rest = b :: t ∧ b ≠ 0x22 ∧ unquoteStep (b :: t) = some (r, rest) := by
  by_cases h : r < 0x80
  · interval_cases r <;> exact ⟨_, _, rfl, by decide, rfl⟩
  · by_cases h2 : r = 0x2028 ∨ r = 0x2029
    · rcases h2 with h2 | h2 <;> subst h2 <;> exact ⟨_, _, rfl, by decide, rfl⟩
    · obtain ⟨b, t, hbt, hb, hlen⟩ := utf8.EncodeRune_head r (by omega) hr
      have hdec := utf8.DecodeRune_EncodeRune r rest hr
      rw [hbt] at hdec
      rw [List.cons_append] at hdec
      have h3 : (b :: (t ++ rest)).drop (b :: t).length = rest := by
        rw [← List.cons_append, List.drop_left]
      refine ⟨b, t ++ rest, ?_, by omega, ?_⟩
      · unfold encodedRune
        rw [if_neg h, if_neg h2, hbt, List.cons_append]
      · have e1 : ¬ (b = 0x5C) := by omega
        have e2 : ¬ (b = 0x22 ∨ b < 0x20) := by omega
        have e3 : ¬ (b < 0x80) := by omega
        simp only [unquoteStep, if_neg e1, if_neg e2, if_neg e3, hdec, h3]

/-- The encoder prints at least one byte per rune. -/
theorem encodedRune_length_pos (r : Nat) (hr : r < 0xD800 ∨ (0xDFFF < r ∧ r < 0x110000)) :
    1 ≤ (encodedRune r).length := by
  obtain ⟨b, t, hbt, -, -⟩ := unquoteStep_rune r [] hr
  rw [List.append_nil] at hbt
  rw [hbt]
  simp

/-- The code of a Lean character is a Unicode scalar value. -/
theorem Char_toNat_valid (c : Char) : c.toNat < 0xD800 ∨ (0xDFFF < c.toNat ∧ c.toNat < 0x110000) := by
  have := c.valid
  unfold UInt32.isValidChar Nat.isValidChar at this
  exact this

/-- A Lean character is recovered from its code. -/
theorem Char_ofNat_toNat (c : Char) : Char.ofNat c.toNat = c := by
  simp [Char.ofNat_toNat]

/-- An encoding has at least one byte. -/
theorem EncodeRune_length_pos (r : Nat) : 1 ≤ (utf8.EncodeRune r).length := by
  unfold utf8.EncodeRune
  split_ifs <;> simp

/-- The encoder loop prints nothing for the empty input. -/
theorem appendStringLoop_nil (fuel : Nat) : appendStringLoop fuel [] = [] := by
  cases fuel <;> rfl

/-- On the bytes of a well-formed string the encoder loop prints the runes one by one. -/
theorem appendStringLoop_chars (cs : List Char) (fuel : Nat)
    (h : (cs.flatMap (fun c => utf8.EncodeRune c.toNat)).length ≤ fuel) :
    appendStringLoop fuel (cs.flatMap (fun c => utf8.EncodeRune c.toNat))
      = cs.flatMap (fun c => encodedRune c.toNat) := by
  induction cs generalizing fuel with
  | nil => exact appendStringLoop_nil fuel
  | cons c cs ih =>
    rw [List.flatMap_cons] at h ⊢
    rw [List.length_append] at h
    have hpos := EncodeRune_length_pos c.toNat
    obtain ⟨f, rfl⟩ : ∃ f, fuel = f + 1 := ⟨fuel - 1, by omega⟩
    rw [appendStringLoop_rune _ _ _ (Char_toNat_valid c), ih f (by omega), List.flatMap_cons]

/-- The string literal printed for a well-formed string. -/
theorem appendString_utf8Bytes (s : String) :
    appendString (utf8Bytes s) = [0x22] ++ encodedString s ++ [0x22] := by
  unfold appendString utf8Bytes encodedString
  rw [appendStringLoop_chars _ _ (Nat.le_refl _)]

/-- The decoder loop reads back the runes of a printed literal up to its closing quote. -/
theorem unquoteLoop_chars (cs : List Char) (acc : List Char) (rest : List Nat) (fuel : Nat)
    (h : cs.length + 1 ≤ fuel) :
    unquoteLoop fuel (cs.flatMap (fun c => encodedRune c.toNat) ++ 0x22 :: rest) acc
      = some (acc ++ cs, rest) := by
  induction cs generalizing acc fuel with
  | nil =>
    obtain ⟨f, rfl⟩ : ∃ f, fuel = f + 1 := ⟨fuel - 1, by omega⟩
    simp [unquoteLoop]
  | cons c cs ih =>
    obtain ⟨f, rfl⟩ : ∃ f, fuel = f + 1 := ⟨fuel - 1, by omega⟩
    rw [List.flatMap_cons, List.append_assoc]
    obtain ⟨b, t, hbt, hb, hstep⟩ := unquoteStep_rune c.toNat
      (cs.flatMap (fun c => encodedRune c.toNat) ++ 0x22 :: rest) (Char_toNat_valid c)
    rw [hbt]
    simp only [unquoteLoop, if_neg hb, hstep]
    rw [Char_ofNat_toNat, ih _ f (by simpa using h)]
    simp

/-- The printed form of a string is at least as long as the string. -/
theorem encodedString_length (cs : List Char) :
    cs.length ≤ (cs.flatMap (fun c => encodedRune c.toNat)).length := by
  induction cs with
  | nil => simp
  | cons c cs ih =>
    rw [List.flatMap_cons, List.length_append, List.length_cons]
    have := encodedRune_length_pos c.toNat (Char_toNat_valid c)
    omega

/-- Reading one printed string literal gives back the string. -/
theorem unquoteLoop_encodedString (s : String) (rest : List Nat) :
    unquoteLoop ((encodedString s ++ 0x22 :: rest).length + 1) (encodedString s ++ 0x22 :: rest) []
      = some (s.data, rest) := by
  have h := unquoteLoop_chars s.data [] rest ((encodedString s ++ 0x22 :: rest).length + 1) (by
    have := encodedString_length s.data
    unfold encodedString
    simp only [List.length_append, List.length_cons]
    omega)
  simpa [encodedString] using h

/-- Unfolding the array loop at an element that is not the first. -/
theorem arrayLoop_cons_succ (s : List Nat) (rest : List (List Nat)) (i : Nat) :
    arrayLoop (s :: rest) (i + 1) = 0x2C :: (appendString s ++ arrayLoop rest (i + 2)) := by
  simp [arrayLoop]

/-- Reading the printed elements of an array gives back the strings. -/
theorem arrayElements_printed (s : String) (ss : List String) (i : Nat) (acc : List String)
    (rest : List Nat) (fuel : Nat) (h : ss.length + 1 ≤ fuel) :
    arrayElements fuel
        (appendString (utf8Bytes s) ++ arrayLoop (ss.map utf8Bytes) (i + 1) ++ 0x5D :: rest) acc
      = .ok (acc ++ s :: ss, rest) := by
  induction ss generalizing s i acc fuel with
  | nil =>
    obtain ⟨f, rfl⟩ : ∃ f, fuel = f + 1 := ⟨fuel - 1, by omega⟩
    rw [appendString_utf8Bytes]
    simp only [List.map_nil, arrayLoop, List.append_nil, List.singleton_append, List.cons_append,
      List.append_assoc, List.nil_append]
    simp only [arrayElements, skipSpace, isSpace]
    simp only [Nat.reduceEqDiff, or_self, decide_False, Bool.false_eq_true, if_false, if_true]
    rw [unquoteLoop_encodedString]
    simp [skipSpace, isSpace]
  | cons s2 ss ih =>
    obtain ⟨f, rfl⟩ : ∃ f, fuel = f + 1 := ⟨fuel - 1, by omega⟩
    rw [appendString_utf8Bytes, List.map_cons, arrayLoop_cons_succ]
    simp only [List.singleton_append, List.cons_append, List.append_assoc, List.nil_append]
    simp only [arrayElements, skipSpace, isSpace]
    simp only [Nat.reduceEqDiff, or_self, decide_False, Bool.false_eq_true, if_false, if_true]
    rw [unquoteLoop_encodedString]
    simp only [skipSpace, isSpace]
    simp only [Nat.reduceEqDiff, or_self, decide_False, Bool.false_eq_true, if_false, if_true]
    have := ih s2 (i + 1) (acc ++ [s]) f (by simpa using h)
    simp only [List.append_assoc] at this
    rw [this]
    simp

end json

namespace utf8

/-- On non-empty input the decoder reports a width of at least one byte. -/
theorem DecodeRune_size_pos (b : Nat) (rest : List Nat) : 1 ≤ (DecodeRune (b :: rest)).2 := by
  simp only [DecodeRune]
  repeat' split
  all_goals simp

end utf8

namespace json
open fullpath

/-- A round of the encoder loop consumes at least the byte it looks at. -/
theorem appendStringStep_length (b : Nat) (rest : List Nat) :
    (appendStringStep b rest).2.length ≤ rest.length := by
  have h := utf8.DecodeRune_size_pos b rest
  unfold appendStringStep
  split_ifs <;> simp only [List.length_drop, List.length_cons] <;> omega

/-- The fuel of the encoder loop never runs out before the input does: any fuel of at least the
length of the input gives the same output. -/
theorem appendStringLoop_fuel (fuel : Nat) :
    ∀ s : List Nat, s.length ≤ fuel → appendStringLoop fuel s = appendStringLoop s.length s := by
  induction fuel using Nat.strong_induction_on with
  | _ fuel ih =>
    intro s hs
    cases s with
    | nil => rw [appendStringLoop_nil, appendStringLoop_nil]
    | cons b rest =>
      obtain ⟨f, rfl⟩ : ∃ f, fuel = f + 1 := ⟨fuel - 1, by simp at hs; omega⟩
      have hlen := appendStringStep_length b rest
      simp only [List.length_cons] at hs ⊢
      rw [appendStringLoop_cons, appendStringLoop_cons,
        ih f (by omega) _ (by omega), ih rest.length (by omega) _ hlen]

/-- The printed elements take at least one byte each. -/
theorem arrayLoop_length (l : List (List Nat)) (i : Nat) : l.length ≤ (arrayLoop l i).length := by
  induction l generalizing i with
  | nil => simp [arrayLoop]
  | cons s rest ih =>
    have := ih (i + 1)
    simp only [arrayLoop, appendString, List.length_append, List.length_cons, List.length_nil]
    omega

/-- Decoding the printed array of well-formed strings gives back the strings. -/
theorem Unmarshal_printed (l : List String) :
    Unmarshal ([0x5B] ++ arrayLoop (l.map utf8Bytes) 0 ++ [0x5D]) = .ok l := by
  cases l with
  | nil => rfl
  | cons s ss =>
    have hfuel : ss.length + 1
        ≤ (appendString (utf8Bytes s) ++ arrayLoop (ss.map utf8Bytes) (0 + 1) ++ [0x5D]).length + 1 := by
      have := arrayLoop_length (ss.map utf8Bytes) (0 + 1)
      simp only [List.length_append, List.length_map] at this ⊢
      omega
    have h := arrayElements_printed s ss 0 [] [] _ hfuel
    have hshape : [0x5B] ++ arrayLoop ((s :: ss).map utf8Bytes) 0 ++ [0x5D]
        = 0x5B :: (appendString (utf8Bytes s) ++ arrayLoop (ss.map utf8Bytes) (0 + 1) ++ [0x5D]) := by
      simp [arrayLoop]
    rw [hshape]
    have hq : appendString (utf8Bytes s) ++ arrayLoop (ss.map utf8Bytes) (0 + 1) ++ [0x5D]
        = 0x22 :: (appendStringLoop (utf8Bytes s).length (utf8Bytes s) ++ [0x22]
            ++ arrayLoop (ss.map utf8Bytes) (0 + 1) ++ [0x5D]) := by
      simp [appendString]
    unfold Unmarshal
    simp only [skipSpace, isSpace]
    simp only [Nat.reduceEqDiff, or_self, decide_False, Bool.false_eq_true, if_false, if_true]
    rw [hq] at h ⊢
    simp only [skipSpace, isSpace]
    simp only [Nat.reduceEqDiff, or_self, decide_False, Bool.false_eq_true, if_false, if_true]
    rw [h]
    simp [skipSpace]

end json

namespace fullpath

/-- C12 (as amended): for every list of zero or more strings holding well-formed UTF-8, empty
strings included, `MarshalJSON` succeeds, and `UnmarshalJSON` applied to the bytes it returns
succeeds and reproduces the original entry sequence exactly, in the same order. -/
theorem MarshalJSON_UnmarshalJSON (p q : Paths) (isNil : Bool) :
    ∃ data : List Nat, MarshalJSON p isNil = .ok data ∧ UnmarshalJSON q data = .ok p := by
  cases p with
  | mk l =>
    by_cases hnil : (isNil && (l.map utf8Bytes).isEmpty) = true
    · have hl : l = [] := by
        simp only [Bool.and_eq_true, List.isEmpty_iff, List.map_eq_nil_iff] at hnil
        exact hnil.2
      subst hl
      refine ⟨[0x6E, 0x75, 0x6C, 0x6C], ?_, rfl⟩
      simp only [MarshalJSON, MarshalJSONRaw, json.Marshal, hnil, if_true]
    · refine ⟨[0x5B] ++ json.arrayLoop (l.map utf8Bytes) 0 ++ [0x5D], ?_, ?_⟩
      · simp only [MarshalJSON, MarshalJSONRaw, json.Marshal, hnil]
        rfl
      · unfold UnmarshalJSON
        rw [json.Unmarshal_printed]

/-- C12 (counterexample): the one-entry list whose entry is the Go string of the single byte
`0xFF`, which is not well-formed UTF-8, is encoded as the JSON text `["\ufffd"]`; decoding that
text succeeds with the entry U+FFFD, whose bytes `EF BF BD` differ from the original entry. -/
theorem MarshalJSON_lossy :
    MarshalJSONRaw [[0xFF]] false
        = .ok [0x5B, 0x22, 0x5C, 0x75, 0x66, 0x66, 0x66, 0x64, 0x22, 0x5D] ∧
      UnmarshalJSON (Paths.mk []) [0x5B, 0x22, 0x5C, 0x75, 0x66, 0x66, 0x66, 0x64, 0x22, 0x5D]
        = .ok (Paths.mk ["\uFFFD"]) ∧
      (Paths.mk ["\uFFFD"]).Paths.map utf8Bytes = [[0xEF, 0xBF, 0xBD]] ∧
      [[0xEF, 0xBF, 0xBD]] ≠ [[0xFF]] := by
  refine ⟨rfl, rfl, by decide, by decide⟩

end fullpath
